import Mathlib

/-!
# Formation deck code codec: shallow embedding and verification

This file embeds the Python sources of the LimbusTeamCodes repository
(`converters/bool_converter.py`, `converters/int_converter.py`,
`converters/text_converter.py`, `formation_deck.py`, `models.py`) as Lean
definitions and proves properties of the codec pipeline.

Conventions of the embedding:
* a Python `bytes` buffer is a `List Nat` whose elements are below 256
  (maintained by construction at every producer);
* a Python `str` is a `List Nat` of Unicode code points;
* Python exceptions are `Except`/`Option` results;
* machine integers are `Int`/`Nat` with explicit `%` where overflow matters.

The gzip/DEFLATE body provided by Python's `gzip` standard library is not
part of the repository; it is modelled from the spec (see `gzipWrap`,
`gzipUnwrap`).  Everything else is translated from the source files.
-/

set_option maxRecDepth 8000

namespace LimbusDeck

/-! ## Base64 alphabet (model of Python `base64.b64encode` / `b64decode`) -/

/-- Code point of the standard base-64 alphabet character for a 6-bit value. -/
def b64Char (n : Nat) : Nat :=
  if n < 26 then 65 + n
  else if n < 52 then 97 + (n - 26)
  else if n < 62 then 48 + (n - 52)
  else if n = 62 then 43
  else 47

/-- Inverse of `b64Char`: 6-bit value of an alphabet code point, `none` for
a character outside the base-64 alphabet (padding `=` included). -/
def b64Index (c : Nat) : Option Nat :=
  if 65 ≤ c ∧ c ≤ 90 then some (c - 65)
  else if 97 ≤ c ∧ c ≤ 122 then some (c - 97 + 26)
  else if 48 ≤ c ∧ c ≤ 57 then some (c - 48 + 52)
  else if c = 43 then some 62
  else if c = 47 then some 63
  else none

/-- Standard base-64 encoding of a byte buffer: 3-byte groups become 4
characters, a final 1- or 2-byte group is padded with `=` (code point 61). -/
def b64EncodeBytes : List Nat → List Nat
  | [] => []
  | [b1] => [b64Char (b1 / 4), b64Char (b1 % 4 * 16), 61, 61]
  | [b1, b2] => [b64Char (b1 / 4), b64Char (b1 % 4 * 16 + b2 / 16),
                 b64Char (b2 % 16 * 4), 61]
  | b1 :: b2 :: b3 :: rest =>
    b64Char (b1 / 4) :: b64Char (b1 % 4 * 16 + b2 / 16) ::
    b64Char (b2 % 16 * 4 + b3 / 64) :: b64Char (b3 % 64) ::
    b64EncodeBytes rest

/-- Decoding of a filtered base-64 character stream in groups of four, with
canonical trailing `=` padding; any other shape fails (model of the
`binascii` quad processing behind `base64.b64decode`). -/
def b64DecodeGroups : List Nat → Option (List Nat)
  | [] => some []
  | c1 :: c2 :: c3 :: c4 :: rest =>
    match b64Index c1, b64Index c2 with
    | some i1, some i2 =>
      if c3 = 61 then
        if c4 = 61 ∧ rest = [] then some [i1 * 4 + i2 / 16] else none
      else
        match b64Index c3 with
        | some i3 =>
          if c4 = 61 then
            if rest = [] then some [i1 * 4 + i2 / 16, i2 % 16 * 16 + i3 / 4]
            else none
          else
            match b64Index c4 with
            | some i4 =>
              (b64DecodeGroups rest).map
                (fun bs => (i1 * 4 + i2 / 16) :: (i2 % 16 * 16 + i3 / 4) ::
                           (i3 % 4 * 64 + i4) :: bs)
            | none => none
        | none => none
    | _, _ => none
  | _ => none

/-- Is a code point a base-64 alphabet character or the padding `=`? -/
def isB64Sym (c : Nat) : Bool := (b64Index c).isSome || c == 61

/-- Model of Python `base64.b64decode` (non-strict): characters outside the
alphabet are discarded, then the remaining characters must form complete
quads; `none` models the raised `binascii.Error`. -/
def b64DecodeBytes (s : List Nat) : Option (List Nat) :=
  b64DecodeGroups (s.filter isB64Sym)

/-! ## UTF-8 (model of Python `str.encode('utf-8')` / `bytes.decode('utf-8')`) -/

/-- UTF-8 encoding of one code point (1 to 4 bytes). -/
def utf8EncodeChar (c : Nat) : List Nat :=
  if c < 128 then [c]
  else if c < 2048 then [192 + c / 64, 128 + c % 64]
  else if c < 65536 then [224 + c / 4096, 128 + c / 64 % 64, 128 + c % 64]
  else [240 + c / 262144, 128 + c / 4096 % 64, 128 + c / 64 % 64, 128 + c % 64]

/-- UTF-8 encoding of a string (list of code points). -/
def utf8Encode (s : List Nat) : List Nat := s.flatMap utf8EncodeChar

/-- Is a byte a UTF-8 continuation byte? -/
def isCont (b : Nat) : Bool := 128 ≤ b && b < 192

/-- Strict UTF-8 decoding, written as a byte-wise state machine: `need` is
the number of continuation bytes still expected, `acc` the partial code
point, `low` the smallest code point the current sequence may legally
produce (rejecting overlong forms).  Rejects stray continuation bytes,
overlong forms, surrogates and code points above U+10FFFF, as Python's
strict decoder does; `none` models the raised `UnicodeDecodeError`. -/
def utf8DecodeSM : List Nat → Nat → Nat → Nat → Option (List Nat)
  | [], 0, _, _ => some []
  | [], _ + 1, _, _ => none
  | b :: rest, 0, _, _ =>
    if b < 128 then (utf8DecodeSM rest 0 0 0).map (b :: ·)
    else if b < 194 then none
    else if b < 224 then utf8DecodeSM rest 1 (b - 192) 128
    else if b < 240 then utf8DecodeSM rest 2 (b - 224) 2048
    else if b < 245 then utf8DecodeSM rest 3 (b - 240) 65536
    else none
  | b :: rest, n + 1, acc, low =>
    if isCont b then
      if n = 0 then
        if low ≤ acc * 64 + (b - 128) ∧
            (acc * 64 + (b - 128) < 55296 ∨ 57343 < acc * 64 + (b - 128)) ∧
            acc * 64 + (b - 128) ≤ 1114111 then
          (utf8DecodeSM rest 0 0 0).map ((acc * 64 + (b - 128)) :: ·)
        else none
      else utf8DecodeSM rest n (acc * 64 + (b - 128)) low
    else none

/-- Strict UTF-8 decoding of a byte buffer. -/
def utf8Decode (l : List Nat) : Option (List Nat) := utf8DecodeSM l 0 0 0

/-- A code point Python's `str.encode('utf-8')` accepts: not a lone
surrogate and at most U+10FFFF. -/
def validScalar (c : Nat) : Bool :=
  decide (c < 55296 ∨ (57343 < c ∧ c < 1114112))

/-! ## gzip container

Modelled from the spec: the body of `TextCompressionUtility` calls Python's
`gzip` standard library, which is not part of this repository.  Per spec
§4.3/§6 it is a general-purpose DEFLATE-family compressor in a
gzip-compatible container with a format-identifying header, and the
decompressor inverts the compressor and fails on a corrupt container.  The
model keeps the two gzip magic bytes (0x1f 0x8b) as the format-identifying
header and models the DEFLATE body as the identity on bytes. -/

/-- Modelled from the spec: gzip compression of a byte buffer (magic header
bytes followed by the payload; the DEFLATE body is the identity). -/
def gzipWrap (data : List Nat) : List Nat := 31 :: 139 :: data

/-- Modelled from the spec: gzip decompression; fails (`none`) unless the
buffer carries the format-identifying header. -/
def gzipUnwrap : List Nat → Option (List Nat)
  | 31 :: 139 :: rest => some rest
  | _ => none

/-! ## TextCompressionUtility (`converters/text_converter.py`) -/

namespace TextCompressionUtility

/-- `TextCompressionUtility.compress`: UTF-8-encode, gzip, base-64; empty
input and encoding failures yield the empty string. -/
def compress (text : List Nat) : List Nat :=
  if text = [] then []
  else if text.all validScalar then b64EncodeBytes (gzipWrap (utf8Encode text))
  else []

/-- `TextCompressionUtility.decompress`: base-64-decode, un-gzip, UTF-8
decode; empty input or any failure yields the empty string (the `except`
branch of the source). -/
def decompress (s : List Nat) : List Nat :=
  if s = [] then []
  else
    match b64DecodeBytes s with
    | none => []
    | some bytes =>
      match gzipUnwrap bytes with
      | none => []
      | some payload =>
        match utf8Decode payload with
        | none => []
        | some text => text

end TextCompressionUtility

/-! ## BoolListBase64Converter (`converters/bool_converter.py`) -/

/-- The 8 bits of one byte, MSB first (`(byte_value & (1 << (7 - bit_in_byte))) != 0`). -/
def byteToBits (b : Nat) : List Bool :=
  (List.range 8).map (fun i => decide (b / 2 ^ (7 - i) % 2 = 1))

/-- The bit-producing loop of `from_base64`: bit `i` is bit `7 - (i & 7)` of
byte `i >> 3`; the loop runs to `expected_count` when positive (else
`8 * len`), breaking as soon as the byte index passes the end of the
buffer — i.e. it emits the first `min expected (8 * len)` bits. -/
def bytesToBits (data : List Nat) (expectedCount : Nat) : List Bool :=
  (data.flatMap byteToBits).take
    (if expectedCount = 0 then data.length * 8 else expectedCount)

/-- One output byte of `to_base64`: up to 8 bits, MSB first, missing
trailing bits left clear. -/
def chunkByte (b0 b1 b2 b3 b4 b5 b6 b7 : Bool) : Nat :=
  (cond b0 128 0) + (cond b1 64 0) + (cond b2 32 0) + (cond b3 16 0) +
  (cond b4 8 0) + (cond b5 4 0) + (cond b6 2 0) + (cond b7 1 0)

/-- The byte-producing loop of `to_base64`: groups of 8 bits, MSB first,
an incomplete final group zero-padded on the right. -/
def boolsToBytes : List Bool → List Nat
  | [] => []
  | [b0] => [chunkByte b0 false false false false false false false]
  | [b0, b1] => [chunkByte b0 b1 false false false false false false]
  | [b0, b1, b2] => [chunkByte b0 b1 b2 false false false false false]
  | [b0, b1, b2, b3] => [chunkByte b0 b1 b2 b3 false false false false]
  | [b0, b1, b2, b3, b4] => [chunkByte b0 b1 b2 b3 b4 false false false]
  | [b0, b1, b2, b3, b4, b5] => [chunkByte b0 b1 b2 b3 b4 b5 false false]
  | [b0, b1, b2, b3, b4, b5, b6] => [chunkByte b0 b1 b2 b3 b4 b5 b6 false]
  | b0 :: b1 :: b2 :: b3 :: b4 :: b5 :: b6 :: b7 :: rest =>
    chunkByte b0 b1 b2 b3 b4 b5 b6 b7 :: boolsToBytes rest

namespace BoolListBase64Converter

/-- `BoolListBase64Converter.from_base64`: base-64 decode (soft-failing to
the empty list) followed by the MSB-first bit extraction loop. -/
def from_base64 (b64String : List Nat) (expectedCount : Nat) : List Bool :=
  if b64String = [] then []
  else
    match b64DecodeBytes b64String with
    | none => []
    | some data => bytesToBits data expectedCount

/-- `BoolListBase64Converter.to_base64`: group the bits into bytes and
base-64 encode them; empty input yields the empty string. -/
def to_base64 (bools : List Bool) : List Nat :=
  if bools = [] then [] else b64EncodeBytes (boolsToBytes bools)

end BoolListBase64Converter

/-! ## IntListBase64Converter (`converters/int_converter.py`) -/

/-- The two failure modes of `IntListBase64Converter.encode`: the explicit
`ValueError` on a `None` argument, and the `struct.error` raised by
`struct.pack` on a value outside the signed 32-bit range. -/
inductive EncodeError where
  | nullInput
  | packRange
deriving DecidableEq, Repr

/-- `struct.pack('<i', v)`: the 4 little-endian bytes of the two's
complement representation of a signed 32-bit integer. -/
def packInt32 (v : Int) : List Nat :=
  let u := (v % 4294967296).toNat
  [u % 256, u / 256 % 256, u / 65536 % 256, u / 16777216 % 256]

/-- Reading of `struct.unpack(f'<{count}i', ...)` on one 4-byte little-endian
group, reinterpreted as signed. -/
def unpackInt32 (b0 b1 b2 b3 : Nat) : Int :=
  let u := b0 + b1 * 256 + b2 * 65536 + b3 * 16777216
  if u < 2147483648 then (u : Int) else (u : Int) - 4294967296

/-- Splitting a byte buffer into 4-byte little-endian signed integers; a
trailing group of 1–3 bytes is dropped (`count = len // 4` in the source). -/
def int32Groups : List Nat → List Int
  | b0 :: b1 :: b2 :: b3 :: rest => unpackInt32 b0 b1 b2 b3 :: int32Groups rest
  | _ => []

/-- Is a value within the signed 32-bit range accepted by `struct.pack('<i', ·)`? -/
def int32InRange (v : Int) : Bool :=
  decide (-2147483648 ≤ v ∧ v < 2147483648)

namespace IntListBase64Converter

/-- `IntListBase64Converter.encode`: `None` raises the explicit
`ValueError`; an empty list returns the empty string; otherwise each value
is packed as 4 little-endian bytes (out-of-range values making
`struct.pack` raise) and the buffer is base-64 encoded. -/
def encode (intList : Option (List Int)) : Except EncodeError (List Nat) :=
  match intList with
  | none => .error .nullInput
  | some [] => .ok []
  | some xs =>
    if xs.all int32InRange then .ok (b64EncodeBytes (xs.flatMap packInt32))
    else .error .packRange

/-- `IntListBase64Converter.decode`: empty input yields the empty list;
base-64 failure soft-fails to the empty list; otherwise the buffer is read
as little-endian int32 groups, dropping a trailing partial group. -/
def decode (b64String : List Nat) : List Int :=
  if b64String = [] then []
  else
    match b64DecodeBytes b64String with
    | none => []
    | some bytes => int32Groups bytes

end IntListBase64Converter

/-! ## Data model (`models.py`) -/

/-- `FormationDetailInfo`: one formation slot record. -/
structure FormationDetailInfo where
  slot : Int
  personality_id : Int
  ego1 : Int
  ego2 : Int
  ego3 : Int
  ego4 : Int
  ego5 : Int
  enabled : Bool
  slot_type : Int
deriving DecidableEq, Repr

/-! ## FormationDeckCode (`formation_deck.py`) -/

/-- The raw on-wire fields of one slot as read by the decode loop:
personality modulus (7 bits), slot type (4 bits), five equipment moduli
(7 bits each). -/
structure RawSlot where
  pMod : Nat
  slotType : Nat
  eMods : List Nat
deriving DecidableEq, Repr

/-- An all-zero raw slot (what the decode loop reads past the end of the
bit buffer). -/
def rawZero : RawSlot := ⟨0, 0, [0, 0, 0, 0, 0]⟩

/-- The bit-reading loop `value = value * 2 | bit`: reads up to `count`
bits starting at `idx`, accumulating MSB-first; an iteration whose index is
past the end of the buffer neither consumes a bit nor shifts the
accumulator (the `if bit_index < len(bools)` guard in the source). -/
def readBitsAux (bools : List Bool) : Nat → Nat → Nat → Nat × Nat
  | acc, idx, 0 => (acc, idx)
  | acc, idx, n + 1 =>
    if idx < bools.length then
      readBitsAux bools (acc * 2 + (if bools.getD idx false then 1 else 0))
        (idx + 1) n
    else readBitsAux bools acc idx n

/-- The per-slot body of the decode loop: 7 bits personality modulus,
4 bits slot type, then five 7-bit equipment moduli; returns the raw fields
and the advanced bit index. -/
def readSlot (bools : List Bool) (idx : Nat) : RawSlot × Nat :=
  let p := readBitsAux bools 0 idx 7
  let t := readBitsAux bools 0 p.2 4
  let e1 := readBitsAux bools 0 t.2 7
  let e2 := readBitsAux bools 0 e1.2 7
  let e3 := readBitsAux bools 0 e2.2 7
  let e4 := readBitsAux bools 0 e3.2 7
  let e5 := readBitsAux bools 0 e4.2 7
  (⟨p.1, t.1, [e1.1, e2.1, e3.1, e4.1, e5.1]⟩, e5.2)

/-- The raw fields of `count` consecutive slots starting at bit index `idx`. -/
def rawsFrom (bools : List Bool) : Nat → Nat → List RawSlot
  | _, 0 => []
  | idx, n + 1 =>
    let r := readSlot bools idx
    r.1 :: rawsFrom bools r.2 n

/-- ID reconstruction, optional validation and conditional emission for one
slot of the decode loop (`formation_deck.py` lines 88–137): returns the
emitted record, if any, and this slot's contribution to `had_errors`. -/
def processSlot (slotNum : Nat) (r : RawSlot) (validate : Bool) :
    Option FormationDetailInfo × Bool :=
  let slotOffset := slotNum * 100
  let pid0 : Nat := if 0 < r.pMod then r.pMod + 10000 + slotOffset else 0
  let egos0 : List Nat := r.eMods.map
    (fun m => if 0 < m then m + 20000 + slotOffset else 0)
  let pBad : Bool := decide (0 < pid0 ∧ (pid0 < 10000 ∨ 99999 < pid0))
  let pid : Nat := if validate && pBad then 0 else pid0
  let egoBad : Bool := egos0.any (fun e => decide (0 < e ∧ (e < 20000 ∨ 99999 < e)))
  let egos : List Nat :=
    if validate then
      egos0.map (fun e => if 0 < e ∧ (e < 20000 ∨ 99999 < e) then 0 else e)
    else egos0
  let stBad : Bool := decide (15 < r.slotType)
  let st : Nat := if validate && stBad then 0 else r.slotType
  let err : Bool := validate && (pBad || egoBad || stBad)
  if 0 < r.pMod ∨ egos.any (fun e => decide (0 < e)) then
    (some {
        slot := (slotNum : Int)
        personality_id := (pid : Int)
        ego1 := (egos.getD 0 0 : Int)
        ego2 := (egos.getD 1 0 : Int)
        ego3 := (egos.getD 2 0 : Int)
        ego4 := (egos.getD 3 0 : Int)
        ego5 := (egos.getD 4 0 : Int)
        enabled := decide (0 < st)
        slot_type := (st : Int) }, err)
  else (none, err)

/-- The slot numbers 1..12 walked by both the encode and the decode loop. -/
def slotNums : List Nat := (List.range 12).map (· + 1)

/-- The decode loop over a list of slot numbers, threading the bit index
and accumulating emitted records and the `had_errors` flag. -/
def decodeSlots (bools : List Bool) (validate : Bool) :
    List Nat → Nat → List FormationDetailInfo × Bool
  | [], _ => ([], false)
  | n :: ns, idx =>
    let rs := readSlot bools idx
    let pe := processSlot n rs.1 validate
    let rest := decodeSlots bools validate ns rs.2
    ((match pe.1 with
      | some f => f :: rest.1
      | none => rest.1), pe.2 || rest.2)

/-- The bit buffer `decode` works on: decompress the outer string, then
base-64 decode the inner payload asking for `0x229 = 553` bits. -/
def deckBits (encoded : List Nat) : List Bool :=
  BoolListBase64Converter.from_base64
    (TextCompressionUtility.decompress encoded) 553

/-- `value % 100 if value > 0 else 0`: the modulus an ID contributes to the
wire (Python `%` on a positive modulus agrees with `Int.emod`). -/
def wireMod (v : Int) : Int := if 0 < v then v % 100 else 0

/-- The five equipment moduli of a slot record, in sub-slot order. -/
def eModsOf (f : FormationDetailInfo) : List Int :=
  [wireMod f.ego1, wireMod f.ego2, wireMod f.ego3, wireMod f.ego4, wireMod f.ego5]

/-- `_int_to_bools`: the `bit_count` bits of `value`, MSB first
(`bool((value >> i) & 1)` for `i = bit_count-1 .. 0`; Python's arithmetic
shift and nonnegative `&` agree with `Int.fdiv` and `Int.emod`). -/
def intToBools (value : Int) (bitCount : Nat) : List Bool :=
  ((List.range bitCount).reverse).map (fun i => decide (value.fdiv (2 ^ i) % 2 = 1))

/-- The 46 bits one deck position contributes to the standard encoding: an
absent position contributes an all-zero block. -/
def encodeSlotBits : Option FormationDetailInfo → List Bool
  | some f =>
    intToBools (wireMod f.personality_id) 7 ++ intToBools f.slot_type 4 ++
    (eModsOf f).flatMap (fun m => intToBools m 7)
  | none =>
    intToBools 0 7 ++ intToBools 0 4 ++
    ([0, 0, 0, 0, 0] : List Int).flatMap (fun m => intToBools m 7)

/-- The positional map `{f.slot: f for f in formations}`: on duplicate slot
numbers the later list entry wins, so lookup searches the reversed list. -/
def formationMap (fs : List FormationDetailInfo) (n : Int) :
    Option FormationDetailInfo :=
  fs.reverse.find? (fun f => decide (f.slot = n))

/-- The full 553-bit deck of the standard encode path: one reserved leading
`true` bit, then the 46-bit block of each slot 1..12. -/
def encodeBits (fs : List FormationDetailInfo) : List Bool :=
  true :: slotNums.flatMap (fun n => encodeSlotBits (formationMap fs (n : Int)))

namespace FormationDeckCode

/-- `FormationDeckCode.decode`: empty input, a failed decompression or an
empty bit buffer return `([], false)`; otherwise the 12-slot decode loop
runs from bit index 1. -/
def decode (encoded : List Nat) (validate : Bool) :
    List FormationDetailInfo × Bool :=
  if encoded = [] then ([], false)
  else
    let inner := TextCompressionUtility.decompress encoded
    if inner = [] then ([], false)
    else
      let bools := BoolListBase64Converter.from_base64 inner 553
      if bools = [] then ([], false)
      else decodeSlots bools validate slotNums 1

/-- `FormationDeckCode.encode`: empty input returns the empty string; the
out-of-rule path flattens `[personality_id, slot_type, ego1..ego5]` per
record into the integer-list codec; the standard path bit-packs the 12-slot
deck, base-64s the bytes and compresses the payload. -/
def encode (formations : List FormationDetailInfo) (outOfRule : Bool) :
    Except EncodeError (List Nat) :=
  if formations = [] then .ok []
  else if outOfRule then
    match IntListBase64Converter.encode (some (formations.flatMap
      (fun f => [f.personality_id, f.slot_type, f.ego1, f.ego2, f.ego3,
                 f.ego4, f.ego5]))) with
    | .error e => .error e
    | .ok innerB64 => .ok (TextCompressionUtility.compress innerB64)
  else
    .ok (TextCompressionUtility.compress
      (BoolListBase64Converter.to_base64 (encodeBits formations)))

end FormationDeckCode

/-! ## Derived views used by the statements of the verified properties -/

/-- The bits of a nonnegative value, MSB first (`intToBools` specialised to
nonnegative input; the two agree by `intToBools_eq_natToBools`). -/
def natToBools (n : Nat) (bitCount : Nat) : List Bool :=
  ((List.range bitCount).reverse).map (fun i => decide (n / 2 ^ i % 2 = 1))

/-- MSB-first accumulation `value = value * 2 + bit` over a whole bit list
(the mathematical content of the decode loop's accumulator). -/
def natOfBitsAux (acc : Nat) : List Bool → Nat
  | [] => acc
  | b :: rest => natOfBitsAux (acc * 2 + (if b then 1 else 0)) rest

/-- The raw on-wire fields the standard encode path writes for one deck
position: the moduli and the slot type, as the decoder will read them back. -/
def rawOf : Option FormationDetailInfo → RawSlot
  | some f =>
    ⟨(wireMod f.personality_id).toNat, f.slot_type.toNat,
     (eModsOf f).map Int.toNat⟩
  | none => rawZero

/-- The raw fields decode reads for deck position `n` (1-based), starting
from bit index 1 as the decode loop does. -/
def rawAt (bools : List Bool) (n : Nat) : RawSlot :=
  (rawsFrom bools 1 12).getD (n - 1) rawZero

/-- A slot record as decode reproduces it: identical fields with `enabled`
derived from `slot_type > 0`. -/
def decodedView (g : FormationDetailInfo) : FormationDetailInfo :=
  { g with enabled := decide (0 < g.slot_type) }

/-- A slot that carries a personality or at least one equipment reference. -/
def slotNonempty (g : FormationDetailInfo) : Prop :=
  g.personality_id ≠ 0 ∨ g.ego1 ≠ 0 ∨ g.ego2 ≠ 0 ∨ g.ego3 ≠ 0 ∨
  g.ego4 ≠ 0 ∨ g.ego5 ≠ 0

instance (g : FormationDetailInfo) : Decidable (slotNonempty g) := by
  unfold slotNonempty
  infer_instance

/-- A nonzero ID decomposing as `slot * 100 + base + m` with a wire modulus
`m` that the 2-decimal-digit wire encoding can carry, i.e. `1 ≤ m ≤ 99`. -/
def validDecomp (base slot v : Int) : Prop :=
  v = 0 ∨ (slot * 100 + base + 1 ≤ v ∧ v ≤ slot * 100 + base + 99)

instance (base slot v : Int) : Decidable (validDecomp base slot v) := by
  unfold validDecomp
  infer_instance

/-- Field ranges under which the standard encoding is lossless: slot 1..12,
slot type 0..15, and every nonzero ID decomposes over its namespace base
with a wire modulus in 1..99. -/
def validSlotFields (f : FormationDetailInfo) : Prop :=
  1 ≤ f.slot ∧ f.slot ≤ 12 ∧ 0 ≤ f.slot_type ∧ f.slot_type ≤ 15 ∧
  validDecomp 10000 f.slot f.personality_id ∧
  validDecomp 20000 f.slot f.ego1 ∧ validDecomp 20000 f.slot f.ego2 ∧
  validDecomp 20000 f.slot f.ego3 ∧ validDecomp 20000 f.slot f.ego4 ∧
  validDecomp 20000 f.slot f.ego5

instance (f : FormationDetailInfo) : Decidable (validSlotFields f) := by
  unfold validSlotFields
  infer_instance

/-- The ID and slot-type ranges every record reconstructed by decode
satisfies: personality 0 or in [10101, 11327], equipment 0 or in
[20101, 21327], slot type in [0, 15]. -/
def rangeOk (f : FormationDetailInfo) : Bool :=
  decide ((f.personality_id = 0 ∨ (10101 ≤ f.personality_id ∧ f.personality_id ≤ 11327)) ∧
    (f.ego1 = 0 ∨ (20101 ≤ f.ego1 ∧ f.ego1 ≤ 21327)) ∧
    (f.ego2 = 0 ∨ (20101 ≤ f.ego2 ∧ f.ego2 ≤ 21327)) ∧
    (f.ego3 = 0 ∨ (20101 ≤ f.ego3 ∧ f.ego3 ≤ 21327)) ∧
    (f.ego4 = 0 ∨ (20101 ≤ f.ego4 ∧ f.ego4 ≤ 21327)) ∧
    (f.ego5 = 0 ∨ (20101 ≤ f.ego5 ∧ f.ego5 ≤ 21327)) ∧
    0 ≤ f.slot_type ∧ f.slot_type ≤ 15)

/-! # Verified properties

## Byte-bit adapter -/

theorem chunkByte_lt (b0 b1 b2 b3 b4 b5 b6 b7 : Bool) :
    chunkByte b0 b1 b2 b3 b4 b5 b6 b7 < 256 := by
  revert b0 b1 b2 b3 b4 b5 b6 b7
  decide

theorem byteToBits_chunkByte (b0 b1 b2 b3 b4 b5 b6 b7 : Bool) :
    byteToBits (chunkByte b0 b1 b2 b3 b4 b5 b6 b7) =
      [b0, b1, b2, b3, b4, b5, b6, b7] := by
  revert b0 b1 b2 b3 b4 b5 b6 b7
  decide

/-- Regrouping the bytes of `boolsToBytes` into bits recovers the input
followed by the zero padding of the incomplete final chunk. -/
theorem boolsToBytes_flat (l : List Bool) :
    (boolsToBytes l).flatMap byteToBits =
      l ++ List.replicate ((8 - l.length % 8) % 8) false := by
  induction l using boolsToBytes.induct with
  | case1 => rfl
  | case2 b0 => simp [boolsToBytes, byteToBits_chunkByte]
  | case3 b0 b1 => simp [boolsToBytes, byteToBits_chunkByte]
  | case4 b0 b1 b2 => simp [boolsToBytes, byteToBits_chunkByte]
  | case5 b0 b1 b2 b3 => simp [boolsToBytes, byteToBits_chunkByte]
  | case6 b0 b1 b2 b3 b4 => simp [boolsToBytes, byteToBits_chunkByte]
  | case7 b0 b1 b2 b3 b4 b5 => simp [boolsToBytes, byteToBits_chunkByte]
  | case8 b0 b1 b2 b3 b4 b5 b6 => simp [boolsToBytes, byteToBits_chunkByte]
  | case9 b0 b1 b2 b3 b4 b5 b6 b7 rest ih =>
    have harith : (8 - (b0 :: b1 :: b2 :: b3 :: b4 :: b5 :: b6 :: b7 :: rest).length % 8) % 8
        = (8 - rest.length % 8) % 8 := by
      simp only [List.length_cons]
      omega
    simp only [boolsToBytes, List.flatMap_cons, ih, byteToBits_chunkByte, harith]
    rfl

theorem boolsToBytes_length (l : List Bool) :
    (boolsToBytes l).length = (l.length + 7) / 8 := by
  induction l using boolsToBytes.induct with
  | case9 b0 b1 b2 b3 b4 b5 b6 b7 rest ih =>
    simp only [boolsToBytes, List.length_cons, ih]
    omega
  | _ => simp [boolsToBytes]

theorem boolsToBytes_lt (l : List Bool) : ∀ b ∈ boolsToBytes l, b < 256 := by
  induction l using boolsToBytes.induct with
  | case1 =>
    intro b hb
    simp [boolsToBytes] at hb
  | case9 b0 b1 b2 b3 b4 b5 b6 b7 rest ih =>
    intro b hb
    rcases List.mem_cons.mp hb with h | h
    · subst h
      exact chunkByte_lt ..
    · exact ih b h
  | _ =>
    intro b hb
    simp only [boolsToBytes, List.mem_singleton] at hb
    subst hb
    exact chunkByte_lt ..

/-- When the bit count is `≡ 1 (mod 8)` the final byte carries a single
payload bit: its 7 low bits are the zero padding. -/
theorem boolsToBytes_last_pad (l : List Bool) (h : l.length % 8 = 1) :
    (boolsToBytes l).getD (l.length / 8) 0 % 128 = 0 := by
  induction l using boolsToBytes.induct with
  | case1 => simp at h
  | case2 b0 =>
    cases b0 <;> rfl
  | case3 b0 b1 => simp at h
  | case4 b0 b1 b2 => simp at h
  | case5 b0 b1 b2 b3 => simp at h
  | case6 b0 b1 b2 b3 b4 => simp at h
  | case7 b0 b1 b2 b3 b4 b5 => simp at h
  | case8 b0 b1 b2 b3 b4 b5 b6 => simp at h
  | case9 b0 b1 b2 b3 b4 b5 b6 b7 rest ih =>
    simp only [List.length_cons] at h ⊢
    have h8 : rest.length % 8 = 1 := by omega
    have hdiv : (rest.length + 1 + 1 + 1 + 1 + 1 + 1 + 1 + 1) / 8
        = rest.length / 8 + 1 := by omega
    rw [hdiv]
    simpa [boolsToBytes] using ih h8

theorem bytesToBits_boolsToBytes (B : List Bool) :
    bytesToBits (boolsToBytes B) B.length = B := by
  unfold bytesToBits
  by_cases hB : B = []
  · subst hB
    rfl
  · have hlen : B.length ≠ 0 := by
      simpa [List.length_eq_zero] using hB
    rw [if_neg hlen, boolsToBytes_flat]
    have := List.take_left B (List.replicate ((8 - B.length % 8) % 8) false)
    exact this

/-- C6: for every finite boolean sequence `B`, converting to bytes with
`boolsToBytes` (MSB-first, zero-padded final chunk) and back with
`bytesToBits` requesting exactly `B.length` bits returns `B` itself. -/
theorem byteBit_roundtrip (B : List Bool) :
    bytesToBits (boolsToBytes B) B.length = B :=
  bytesToBits_boolsToBytes B

/-! ## Base64 round trip -/

theorem b64Index_b64Char : ∀ n, n < 64 → b64Index (b64Char n) = some n := by
  decide

theorem b64Char_lt (n : Nat) : b64Char n < 128 := by
  unfold b64Char
  split_ifs <;> omega

theorem b64Char_ne_61 : ∀ n, n < 64 → b64Char n ≠ 61 := by
  decide

theorem isB64Sym_b64Char (n : Nat) (h : n < 64) : isB64Sym (b64Char n) = true := by
  simp [isB64Sym, b64Index_b64Char n h]

theorem b64Encode_mem_sym (l : List Nat) (hl : ∀ b ∈ l, b < 256) :
    ∀ c ∈ b64EncodeBytes l, isB64Sym c = true := by
  induction l using b64EncodeBytes.induct with
  | case1 =>
    intro c hc
    simp [b64EncodeBytes] at hc
  | case2 b1 =>
    have h1 : b1 < 256 := hl b1 (by simp)
    intro c hc
    simp only [b64EncodeBytes, List.mem_cons, List.not_mem_nil, or_false] at hc
    rcases hc with h | h | h | h <;> subst h <;>
      first
        | exact isB64Sym_b64Char _ (by omega)
        | rfl
  | case3 b1 b2 =>
    have h1 : b1 < 256 := hl b1 (by simp)
    have h2 : b2 < 256 := hl b2 (by simp)
    intro c hc
    simp only [b64EncodeBytes, List.mem_cons, List.not_mem_nil, or_false] at hc
    rcases hc with h | h | h | h <;> subst h <;>
      first
        | exact isB64Sym_b64Char _ (by omega)
        | rfl
  | case4 b1 b2 b3 rest ih =>
    have h1 : b1 < 256 := hl b1 (by simp)
    have h2 : b2 < 256 := hl b2 (by simp)
    have h3 : b3 < 256 := hl b3 (by simp)
    have hrest : ∀ b ∈ rest, b < 256 := fun b hb => hl b (by simp [hb])
    intro c hc
    simp only [b64EncodeBytes, List.mem_cons] at hc
    rcases hc with h | h | h | h | h
    · subst h; exact isB64Sym_b64Char _ (by omega)
    · subst h; exact isB64Sym_b64Char _ (by omega)
    · subst h; exact isB64Sym_b64Char _ (by omega)
    · subst h; exact isB64Sym_b64Char _ (by omega)
    · exact ih hrest c h

theorem b64DecodeGroups_encode (l : List Nat) (hl : ∀ b ∈ l, b < 256) :
    b64DecodeGroups (b64EncodeBytes l) = some l := by
  induction l using b64EncodeBytes.induct with
  | case1 => rfl
  | case2 b1 =>
    have h1 : b1 < 256 := hl b1 (by simp)
    simp only [b64EncodeBytes, b64DecodeGroups,
      b64Index_b64Char (b1 / 4) (by omega),
      b64Index_b64Char (b1 % 4 * 16) (by omega)]
    simp only [if_true, and_self, ite_true, Option.some.injEq, List.cons.injEq,
      and_true]
    omega
  | case3 b1 b2 =>
    have h1 : b1 < 256 := hl b1 (by simp)
    have h2 : b2 < 256 := hl b2 (by simp)
    simp only [b64EncodeBytes, b64DecodeGroups,
      b64Index_b64Char (b1 / 4) (by omega),
      b64Index_b64Char (b1 % 4 * 16 + b2 / 16) (by omega),
      b64Index_b64Char (b2 % 16 * 4) (by omega)]
    rw [if_neg (b64Char_ne_61 (b2 % 16 * 4) (by omega))]
    simp only [if_true, Option.some.injEq, List.cons.injEq, and_true]
    constructor <;> omega
  | case4 b1 b2 b3 rest ih =>
    have h1 : b1 < 256 := hl b1 (by simp)
    have h2 : b2 < 256 := hl b2 (by simp)
    have h3 : b3 < 256 := hl b3 (by simp)
    have hrest : ∀ b ∈ rest, b < 256 := fun b hb => hl b (by simp [hb])
    simp only [b64EncodeBytes, b64DecodeGroups,
      b64Index_b64Char (b1 / 4) (by omega),
      b64Index_b64Char (b1 % 4 * 16 + b2 / 16) (by omega),
      b64Index_b64Char (b2 % 16 * 4 + b3 / 64) (by omega),
      b64Index_b64Char (b3 % 64) (by omega)]
    rw [if_neg (b64Char_ne_61 (b2 % 16 * 4 + b3 / 64) (by omega)),
      if_neg (b64Char_ne_61 (b3 % 64) (by omega)), ih hrest]
    rw [Option.map_some']
    simp only [Option.some.injEq, List.cons.injEq]
    refine ⟨by omega, by omega, by omega, trivial⟩

theorem b64_roundtrip (l : List Nat) (hl : ∀ b ∈ l, b < 256) :
    b64DecodeBytes (b64EncodeBytes l) = some l := by
  unfold b64DecodeBytes
  rw [List.filter_eq_self.mpr (b64Encode_mem_sym l hl)]
  exact b64DecodeGroups_encode l hl

theorem b64EncodeBytes_ne_nil (l : List Nat) (h : l ≠ []) :
    b64EncodeBytes l ≠ [] := by
  rcases l with _ | ⟨b1, _ | ⟨b2, _ | ⟨b3, rest⟩⟩⟩
  · exact absurd rfl h
  · intro hc
    simp only [b64EncodeBytes] at hc
    exact List.noConfusion hc
  · intro hc
    simp only [b64EncodeBytes] at hc
    exact List.noConfusion hc
  · intro hc
    simp only [b64EncodeBytes] at hc
    exact List.noConfusion hc

theorem b64Encode_lt128 (l : List Nat) : ∀ c ∈ b64EncodeBytes l, c < 128 := by
  induction l using b64EncodeBytes.induct with
  | case1 =>
    intro c hc
    simp [b64EncodeBytes] at hc
  | case2 b1 =>
    intro c hc
    simp only [b64EncodeBytes, List.mem_cons, List.not_mem_nil, or_false] at hc
    rcases hc with h | h | h | h <;> subst h <;>
      first
        | exact b64Char_lt _
        | omega
  | case3 b1 b2 =>
    intro c hc
    simp only [b64EncodeBytes, List.mem_cons, List.not_mem_nil, or_false] at hc
    rcases hc with h | h | h | h <;> subst h <;>
      first
        | exact b64Char_lt _
        | omega
  | case4 b1 b2 b3 rest ih =>
    intro c hc
    simp only [b64EncodeBytes, List.mem_cons] at hc
    rcases hc with h | h | h | h | h
    · subst h; exact b64Char_lt _
    · subst h; exact b64Char_lt _
    · subst h; exact b64Char_lt _
    · subst h; exact b64Char_lt _
    · exact ih c h

/-! ## UTF-8 on ASCII payloads -/

theorem utf8Encode_ascii (s : List Nat) (h : ∀ c ∈ s, c < 128) :
    utf8Encode s = s := by
  induction s with
  | nil => rfl
  | cons c t ih =>
    have hc : c < 128 := h c (by simp)
    have ht : utf8Encode t = t := ih (fun x hx => h x (by simp [hx]))
    have hec : utf8EncodeChar c = [c] := by
      unfold utf8EncodeChar
      rw [if_pos hc]
    show (c :: t).flatMap utf8EncodeChar = c :: t
    rw [List.flatMap_cons, hec, show t.flatMap utf8EncodeChar = t from ht]
    rfl

theorem utf8Decode_ascii (s : List Nat) (h : ∀ c ∈ s, c < 128) :
    utf8Decode s = some s := by
  induction s with
  | nil => rfl
  | cons c t ih =>
    have hc : c < 128 := h c (by simp)
    have ht : utf8Decode t = some t := ih (fun x hx => h x (by simp [hx]))
    unfold utf8Decode at ht ⊢
    rw [utf8DecodeSM, if_pos hc, ht]
    rfl

/-! ## Text compression layer on ASCII payloads -/

theorem decompress_compress (s : List Nat) (hne : s ≠ [])
    (h : ∀ c ∈ s, c < 128) :
    TextCompressionUtility.decompress (TextCompressionUtility.compress s) = s := by
  unfold TextCompressionUtility.compress
  rw [if_neg hne]
  have hall : s.all validScalar = true := by
    simp only [List.all_eq_true, validScalar, decide_eq_true_eq]
    intro c hc
    exact Or.inl (by have := h c hc; omega)
  rw [if_pos hall, utf8Encode_ascii s h]
  have hbytes : ∀ b ∈ gzipWrap s, b < 256 := by
    intro b hb
    simp only [gzipWrap, List.mem_cons] at hb
    rcases hb with rfl | rfl | hb
    · omega
    · omega
    · have := h b hb; omega
  unfold TextCompressionUtility.decompress
  rw [if_neg (b64EncodeBytes_ne_nil _ (by simp [gzipWrap])), b64_roundtrip _ hbytes]
  simp [gzipWrap, gzipUnwrap, utf8Decode_ascii s h]

theorem compress_ne_nil (s : List Nat) (hne : s ≠ []) (h : ∀ c ∈ s, c < 128) :
    TextCompressionUtility.compress s ≠ [] := by
  unfold TextCompressionUtility.compress
  rw [if_neg hne]
  have hall : s.all validScalar = true := by
    simp only [List.all_eq_true, validScalar, decide_eq_true_eq]
    intro c hc
    exact Or.inl (by have := h c hc; omega)
  rw [if_pos hall]
  exact b64EncodeBytes_ne_nil _ (by simp [gzipWrap])

/-! ## Integer-list codec -/

theorem packInt32_lt (v : Int) : ∀ b ∈ packInt32 v, b < 256 := by
  intro b hb
  simp only [packInt32, List.mem_cons, List.not_mem_nil, or_false] at hb
  rcases hb with rfl | rfl | rfl | rfl <;> omega

theorem int32Groups_pack (v : Int) (h1 : -2147483648 ≤ v)
    (h2 : v < 2147483648) (rest : List Nat) :
    int32Groups (packInt32 v ++ rest) = v :: int32Groups rest := by
  simp only [packInt32, List.cons_append, List.nil_append, int32Groups,
    unpackInt32]
  split_ifs with hc
  · congr 1
    omega
  · congr 1
    omega

theorem int32InRange_bounds (v : Int) (h : int32InRange v = true) :
    -2147483648 ≤ v ∧ v < 2147483648 := by
  simpa [int32InRange] using h

theorem flatPack_lt (xs : List Int) : ∀ b ∈ xs.flatMap packInt32, b < 256 := by
  intro b hb
  rcases List.mem_flatMap.mp hb with ⟨v, _, hbv⟩
  exact packInt32_lt v b hbv

theorem int32Groups_flatPack (xs : List Int)
    (h : ∀ v ∈ xs, int32InRange v = true) :
    int32Groups (xs.flatMap packInt32) = xs := by
  induction xs with
  | nil => rfl
  | cons x t ih =>
    have hx := int32InRange_bounds x (h x (by simp))
    rw [List.flatMap_cons, int32Groups_pack x hx.1 hx.2,
      ih (fun v hv => h v (by simp [hv]))]

/-- C7: decoding the integer-list encoding of any sequence of signed 32-bit
integers (`INT32_MIN`, `INT32_MAX`, zero and negatives included) returns the
original sequence in the original order. -/
theorem int_list_roundtrip (xs : List Int)
    (h : ∀ v ∈ xs, int32InRange v = true) :
    ∃ s, IntListBase64Converter.encode (some xs) = .ok s ∧
      IntListBase64Converter.decode s = xs := by
  cases xs with
  | nil => exact ⟨[], rfl, rfl⟩
  | cons x t =>
    have hall : (x :: t).all int32InRange = true := List.all_eq_true.mpr h
    have hflat : (x :: t).flatMap packInt32 ≠ [] := by
      rw [List.flatMap_cons]
      simp [packInt32]
    refine ⟨b64EncodeBytes ((x :: t).flatMap packInt32), ?_, ?_⟩
    · simp [IntListBase64Converter.encode, hall]
    · unfold IntListBase64Converter.decode
      rw [if_neg (b64EncodeBytes_ne_nil _ hflat),
        b64_roundtrip _ (flatPack_lt (x :: t))]
      exact int32Groups_flatPack (x :: t) h

/-- C7 witness: the round trip at a list containing `INT32_MAX`,
`INT32_MIN`, zero and a negative value. -/
theorem int_list_roundtrip_witness :
    ∃ s, IntListBase64Converter.encode (some [2147483647, -2147483648, 0, -1])
        = .ok s ∧
      IntListBase64Converter.decode s = [2147483647, -2147483648, 0, -1] :=
  int_list_roundtrip [2147483647, -2147483648, 0, -1] (by decide)

/-- C8: the integer-list encoder fails with the explicit invalid-input
condition exactly when the argument is absent (`None`); an empty sequence
is not an error and yields the empty result. -/
theorem int_list_null_check :
    (∀ inp : Option (List Int),
      IntListBase64Converter.encode inp = .error .nullInput ↔ inp = none) ∧
    IntListBase64Converter.encode (some []) = .ok [] := by
  constructor
  · intro inp
    constructor
    · intro hinp
      cases inp with
      | none => rfl
      | some xs =>
        cases xs with
        | nil => exact absurd hinp (by simp [IntListBase64Converter.encode])
        | cons x t =>
          by_cases hc : (x :: t).all int32InRange = true
          · simp [IntListBase64Converter.encode, hc] at hinp
          · simp [IntListBase64Converter.encode, hc] at hinp
    · rintro rfl
      rfl
  · rfl

/-! ## Transport soft-failure propagation -/

/-- C9: malformed transport soft-fails to an empty result at the layer
where it occurs (`decompress` maps base-64, container and text-decoding
failures to the empty string) and `decode` returns `([], false)` whenever a
transport layer produced an empty result. -/
theorem transport_soft_fail :
    (∀ s v, TextCompressionUtility.decompress s = [] →
      FormationDeckCode.decode s v = ([], false)) ∧
    (∀ s v, BoolListBase64Converter.from_base64
        (TextCompressionUtility.decompress s) 553 = [] →
      FormationDeckCode.decode s v = ([], false)) ∧
    (∀ s, b64DecodeBytes s = none → TextCompressionUtility.decompress s = []) ∧
    (∀ s bytes, b64DecodeBytes s = some bytes → gzipUnwrap bytes = none →
      TextCompressionUtility.decompress s = []) ∧
    (∀ s bytes payload, b64DecodeBytes s = some bytes →
      gzipUnwrap bytes = some payload → utf8Decode payload = none →
      TextCompressionUtility.decompress s = []) := by
  refine ⟨?_, ?_, ?_, ?_, ?_⟩
  · intro s v h
    unfold FormationDeckCode.decode
    by_cases hs : s = []
    · rw [if_pos hs]
    · rw [if_neg hs]
      simp [h]
  · intro s v h
    unfold FormationDeckCode.decode
    by_cases hs : s = []
    · rw [if_pos hs]
    · rw [if_neg hs]
      by_cases hi : TextCompressionUtility.decompress s = []
      · simp [hi]
      · simp [hi, h]
  · intro s h
    unfold TextCompressionUtility.decompress
    by_cases hs : s = []
    · rw [if_pos hs]
    · rw [if_neg hs]
      simp [h]
  · intro s bytes h1 h2
    unfold TextCompressionUtility.decompress
    by_cases hs : s = []
    · rw [if_pos hs]
    · rw [if_neg hs]
      simp [h1, h2]
  · intro s bytes payload h1 h2 h3
    unfold TextCompressionUtility.decompress
    by_cases hs : s = []
    · rw [if_pos hs]
    · rw [if_neg hs]
      simp [h1, h2, h3]

/-- C9 witness: a single-character junk string soft-fails through every
layer and decodes, with either validation mode, to `([], false)`. -/
theorem transport_soft_fail_witness :
    FormationDeckCode.decode [33] true = ([], false) :=
  transport_soft_fail.1 [33] true (by decide)

/-! ## Bit-field packing: `_int_to_bools` against the decode bit reader -/

theorem natToBools_length (n w : Nat) : (natToBools n w).length = w := by
  simp [natToBools]

theorem natCast_fdiv (n m : Nat) :
    ((n : Int)).fdiv ((m : Int)) = ((n / m : Nat) : Int) := by
  cases n with
  | zero => simp [Int.fdiv]
  | succ k => rfl

theorem intToBools_eq_natToBools (v : Int) (hv : 0 ≤ v) (w : Nat) :
    intToBools v w = natToBools v.toNat w := by
  unfold intToBools natToBools
  apply List.map_congr_left
  intro i _
  rw [decide_eq_decide]
  obtain ⟨n, rfl⟩ : ∃ n : Nat, v = (n : Int) :=
    ⟨v.toNat, (Int.toNat_of_nonneg hv).symm⟩
  rw [show ((2 : Int) ^ i) = ((2 ^ i : Nat) : Int) by push_cast; ring,
    natCast_fdiv, Int.toNat_natCast]
  norm_cast

theorem natToBools_succ (n w : Nat) :
    natToBools n (w + 1) = decide (n / 2 ^ w % 2 = 1) :: natToBools n w := by
  unfold natToBools
  rw [List.range_succ, List.reverse_append]
  rfl

theorem natOfBitsAux_acc (l : List Bool) :
    ∀ acc, natOfBitsAux acc l = acc * 2 ^ l.length + natOfBitsAux 0 l := by
  induction l with
  | nil =>
    intro acc
    simp [natOfBitsAux]
  | cons b t ih =>
    intro acc
    simp only [natOfBitsAux, List.length_cons]
    rw [ih, ih (0 * 2 + (if b then 1 else 0)), pow_succ]
    ring

theorem natOfBits_natToBools (n : Nat) :
    ∀ w, natOfBitsAux 0 (natToBools n w) = n % 2 ^ w := by
  intro w
  induction w with
  | zero => simp [natToBools, natOfBitsAux, Nat.mod_one]
  | succ w ih =>
    rw [natToBools_succ]
    simp only [natOfBitsAux]
    rw [natOfBitsAux_acc, ih, natToBools_length, pow_succ, Nat.mod_mul]
    by_cases hb : n / 2 ^ w % 2 = 1
    · rw [hb]
      simp
      ring
    · have hb0 : n / 2 ^ w % 2 = 0 := by omega
      rw [hb0]
      simp

theorem readBitsAux_seg :
    ∀ (seg pre post : List Bool) (acc : Nat),
      readBitsAux (pre ++ seg ++ post) acc pre.length seg.length
        = (natOfBitsAux acc seg, pre.length + seg.length) := by
  intro seg
  induction seg with
  | nil =>
    intro pre post acc
    simp [readBitsAux, natOfBitsAux]
  | cons b t ih =>
    intro pre post acc
    have hlt : pre.length < (pre ++ (b :: t) ++ post).length := by
      simp [List.length_append]
    have hget : (pre ++ (b :: t) ++ post).getD pre.length false = b := by
      rw [List.append_assoc, List.getD_append_right pre ((b :: t) ++ post) false
        pre.length (le_refl _)]
      simp
    simp only [List.length_cons, readBitsAux, if_pos hlt, hget]
    have hstep := ih (pre ++ [b]) post (acc * 2 + (if b then 1 else 0))
    simp only [List.append_assoc, List.singleton_append, List.length_append,
      List.length_singleton] at hstep ⊢
    rw [hstep]
    simp only [natOfBitsAux, Prod.mk.injEq, true_and, eq_self_iff_true]
    omega

theorem readBitsAux_natToBools (v w : Nat) (hv : v < 2 ^ w)
    (pre post : List Bool) :
    readBitsAux (pre ++ natToBools v w ++ post) 0 pre.length w
      = (v, pre.length + w) := by
  have h := readBitsAux_seg (natToBools v w) pre post 0
  rw [natToBools_length] at h
  rw [h, natOfBits_natToBools, Nat.mod_eq_of_lt hv]

theorem readBits_at (bools pre post : List Bool) (v w : Nat) (hv : v < 2 ^ w)
    (hB : bools = pre ++ natToBools v w ++ post) (i : Nat)
    (hi : i = pre.length) :
    readBitsAux bools 0 i w = (v, i + w) := by
  subst hB hi
  exact readBitsAux_natToBools v w hv pre post

/-! ## Per-slot round trip: `readSlot` inverts `encodeSlotBits` -/

theorem wireMod_nonneg (v : Int) : 0 ≤ wireMod v := by
  unfold wireMod
  split_ifs
  · exact Int.emod_nonneg v (by norm_num)
  · exact le_refl 0

theorem wireMod_lt (v : Int) : wireMod v < 100 := by
  unfold wireMod
  split_ifs
  · exact Int.emod_lt_of_pos v (by norm_num)
  · norm_num

theorem wireMod_toNat_lt (v : Int) : (wireMod v).toNat < 100 := by
  have h1 := wireMod_nonneg v
  have h2 := wireMod_lt v
  omega

theorem readSlot_seven (bools pre post : List Bool) (p st e1 e2 e3 e4 e5 : Nat)
    (hp : p < 128) (hst : st < 16) (h1 : e1 < 128) (h2 : e2 < 128)
    (h3 : e3 < 128) (h4 : e4 < 128) (h5 : e5 < 128)
    (hB : bools = pre ++ (natToBools p 7 ++ natToBools st 4 ++
      (natToBools e1 7 ++ (natToBools e2 7 ++ (natToBools e3 7 ++
       (natToBools e4 7 ++ (natToBools e5 7 ++ [])))))) ++ post) :
    readSlot bools pre.length = (⟨p, st, [e1, e2, e3, e4, e5]⟩, pre.length + 46) := by
  have r1 : readBitsAux bools 0 (pre.length) 7 = (p, pre.length + 7) :=
    readBits_at bools pre (natToBools st 4 ++ natToBools e1 7 ++ natToBools e2 7 ++ natToBools e3 7 ++ natToBools e4 7 ++ natToBools e5 7 ++ post) p 7 (by omega)
      (by rw [hB]; simp [List.append_assoc]) (pre.length) rfl
  have r2 : readBitsAux bools 0 (pre.length + 7) 4 = (st, pre.length + 7 + 4) :=
    readBits_at bools (pre ++ natToBools p 7) (natToBools e1 7 ++ natToBools e2 7 ++ natToBools e3 7 ++ natToBools e4 7 ++ natToBools e5 7 ++ post) st 4 (by omega)
      (by rw [hB]; simp [List.append_assoc]) (pre.length + 7) (by simp [List.length_append, natToBools_length])
  have r3 : readBitsAux bools 0 (pre.length + 7 + 4) 7 = (e1, pre.length + 7 + 4 + 7) :=
    readBits_at bools (pre ++ natToBools p 7 ++ natToBools st 4) (natToBools e2 7 ++ natToBools e3 7 ++ natToBools e4 7 ++ natToBools e5 7 ++ post) e1 7 (by omega)
      (by rw [hB]; simp [List.append_assoc]) (pre.length + 7 + 4) (by simp [List.length_append, natToBools_length])
  have r4 : readBitsAux bools 0 (pre.length + 7 + 4 + 7) 7 = (e2, pre.length + 7 + 4 + 7 + 7) :=
    readBits_at bools (pre ++ natToBools p 7 ++ natToBools st 4 ++ natToBools e1 7) (natToBools e3 7 ++ natToBools e4 7 ++ natToBools e5 7 ++ post) e2 7 (by omega)
      (by rw [hB]; simp [List.append_assoc]) (pre.length + 7 + 4 + 7) (by simp [List.length_append, natToBools_length])
  have r5 : readBitsAux bools 0 (pre.length + 7 + 4 + 7 + 7) 7 = (e3, pre.length + 7 + 4 + 7 + 7 + 7) :=
    readBits_at bools (pre ++ natToBools p 7 ++ natToBools st 4 ++ natToBools e1 7 ++ natToBools e2 7) (natToBools e4 7 ++ natToBools e5 7 ++ post) e3 7 (by omega)
      (by rw [hB]; simp [List.append_assoc]) (pre.length + 7 + 4 + 7 + 7) (by simp [List.length_append, natToBools_length])
  have r6 : readBitsAux bools 0 (pre.length + 7 + 4 + 7 + 7 + 7) 7 = (e4, pre.length + 7 + 4 + 7 + 7 + 7 + 7) :=
    readBits_at bools (pre ++ natToBools p 7 ++ natToBools st 4 ++ natToBools e1 7 ++ natToBools e2 7 ++ natToBools e3 7) (natToBools e5 7 ++ post) e4 7 (by omega)
      (by rw [hB]; simp [List.append_assoc]) (pre.length + 7 + 4 + 7 + 7 + 7) (by simp [List.length_append, natToBools_length])
  have r7 : readBitsAux bools 0 (pre.length + 7 + 4 + 7 + 7 + 7 + 7) 7 = (e5, pre.length + 7 + 4 + 7 + 7 + 7 + 7 + 7) :=
    readBits_at bools (pre ++ natToBools p 7 ++ natToBools st 4 ++ natToBools e1 7 ++ natToBools e2 7 ++ natToBools e3 7 ++ natToBools e4 7) (post) e5 7 (by omega)
      (by rw [hB]; simp [List.append_assoc]) (pre.length + 7 + 4 + 7 + 7 + 7 + 7) (by simp [List.length_append, natToBools_length])
  unfold readSlot
  simp only [r1, r2, r3, r4, r5, r6, r7, Prod.mk.injEq, RawSlot.mk.injEq]

theorem rawOf_some (f : FormationDetailInfo) :
    rawOf (some f) = ⟨(wireMod f.personality_id).toNat, f.slot_type.toNat,
      [(wireMod f.ego1).toNat, (wireMod f.ego2).toNat, (wireMod f.ego3).toNat,
       (wireMod f.ego4).toNat, (wireMod f.ego5).toNat]⟩ := by
  simp [rawOf, eModsOf]

theorem readSlot_block (fo : Option FormationDetailInfo) (bools pre post : List Bool)
    (hst : ∀ f, fo = some f → 0 ≤ f.slot_type ∧ f.slot_type ≤ 15)
    (hB : bools = pre ++ encodeSlotBits fo ++ post) :
    readSlot bools pre.length = (rawOf fo, pre.length + 46) := by
  cases fo with
  | none =>
    rw [show encodeSlotBits none = natToBools 0 7 ++ natToBools 0 4 ++
      (natToBools 0 7 ++ (natToBools 0 7 ++ (natToBools 0 7 ++
       (natToBools 0 7 ++ (natToBools 0 7 ++ []))))) from by decide] at hB
    exact readSlot_seven bools pre post 0 0 0 0 0 0 0 (by omega) (by omega)
      (by omega) (by omega) (by omega) (by omega) (by omega) hB
  | some f =>
    obtain ⟨hst0, hst15⟩ := hst f rfl
    have hshape : encodeSlotBits (some f) =
        natToBools (wireMod f.personality_id).toNat 7 ++
        natToBools f.slot_type.toNat 4 ++
        (natToBools (wireMod f.ego1).toNat 7 ++
         (natToBools (wireMod f.ego2).toNat 7 ++
          (natToBools (wireMod f.ego3).toNat 7 ++
           (natToBools (wireMod f.ego4).toNat 7 ++
            (natToBools (wireMod f.ego5).toNat 7 ++ []))))) := by
      simp only [encodeSlotBits, eModsOf, List.flatMap_cons, List.flatMap_nil]
      rw [intToBools_eq_natToBools _ (wireMod_nonneg f.personality_id),
        intToBools_eq_natToBools _ hst0,
        intToBools_eq_natToBools _ (wireMod_nonneg f.ego1),
        intToBools_eq_natToBools _ (wireMod_nonneg f.ego2),
        intToBools_eq_natToBools _ (wireMod_nonneg f.ego3),
        intToBools_eq_natToBools _ (wireMod_nonneg f.ego4),
        intToBools_eq_natToBools _ (wireMod_nonneg f.ego5)]
    rw [hshape] at hB
    rw [rawOf_some]
    exact readSlot_seven bools pre post _ _ _ _ _ _ _
      (by have := wireMod_toNat_lt f.personality_id; omega)
      (by omega)
      (by have := wireMod_toNat_lt f.ego1; omega)
      (by have := wireMod_toNat_lt f.ego2; omega)
      (by have := wireMod_toNat_lt f.ego3; omega)
      (by have := wireMod_toNat_lt f.ego4; omega)
      (by have := wireMod_toNat_lt f.ego5; omega) hB

/-! ## Evaluation of `processSlot` on in-range raw fields -/

theorem encodeSlotBits_length (fo : Option FormationDetailInfo) :
    (encodeSlotBits fo).length = 46 := by
  cases fo with
  | none => decide
  | some f =>
    simp [encodeSlotBits, eModsOf, List.flatMap_cons, List.flatMap_nil,
      intToBools, List.length_append]

theorem rawOf_bounds (fo : Option FormationDetailInfo)
    (hst : ∀ f, fo = some f → 0 ≤ f.slot_type ∧ f.slot_type ≤ 15) :
    (rawOf fo).pMod < 128 ∧ (rawOf fo).slotType < 16 ∧
      ∀ m ∈ (rawOf fo).eMods, m < 128 := by
  cases fo with
  | none =>
    refine ⟨by decide, by decide, ?_⟩
    intro m hm
    simp [rawOf, rawZero] at hm
    omega
  | some f =>
    obtain ⟨h0, h15⟩ := hst f rfl
    refine ⟨?_, ?_, ?_⟩
    · simp only [rawOf_some]
      have := wireMod_toNat_lt f.personality_id
      omega
    · simp only [rawOf_some]
      omega
    · intro m hm
      simp only [rawOf_some, List.mem_cons, List.not_mem_nil, or_false] at hm
      have l1 := wireMod_toNat_lt f.ego1
      have l2 := wireMod_toNat_lt f.ego2
      have l3 := wireMod_toNat_lt f.ego3
      have l4 := wireMod_toNat_lt f.ego4
      have l5 := wireMod_toNat_lt f.ego5
      rcases hm with rfl | rfl | rfl | rfl | rfl <;> omega

theorem processSlot_eval (n : Nat) (r : RawSlot) (v : Bool)
    (hp : r.pMod < 128) (hst : r.slotType < 16) (hm : ∀ m ∈ r.eMods, m < 128)
    (hn : n ≤ 12) :
    processSlot n r v =
      (if 0 < r.pMod ∨ (r.eMods.map
          (fun m => if 0 < m then m + 20000 + n * 100 else 0)).any
          (fun e => decide (0 < e)) then
        some {
          slot := (n : Int)
          personality_id :=
            ((if 0 < r.pMod then r.pMod + 10000 + n * 100 else 0 : Nat) : Int)
          ego1 := (((r.eMods.map
            (fun m => if 0 < m then m + 20000 + n * 100 else 0)).getD 0 0 : Nat) : Int)
          ego2 := (((r.eMods.map
            (fun m => if 0 < m then m + 20000 + n * 100 else 0)).getD 1 0 : Nat) : Int)
          ego3 := (((r.eMods.map
            (fun m => if 0 < m then m + 20000 + n * 100 else 0)).getD 2 0 : Nat) : Int)
          ego4 := (((r.eMods.map
            (fun m => if 0 < m then m + 20000 + n * 100 else 0)).getD 3 0 : Nat) : Int)
          ego5 := (((r.eMods.map
            (fun m => if 0 < m then m + 20000 + n * 100 else 0)).getD 4 0 : Nat) : Int)
          enabled := decide (0 < r.slotType)
          slot_type := ((r.slotType : Nat) : Int) }
      else none, false) := by
  unfold processSlot
  have hpBad : decide (0 < (if 0 < r.pMod then r.pMod + 10000 + n * 100 else 0) ∧
      ((if 0 < r.pMod then r.pMod + 10000 + n * 100 else 0) < 10000 ∨
       99999 < (if 0 < r.pMod then r.pMod + 10000 + n * 100 else 0))) = false := by
    rw [decide_eq_false_iff_not]
    split_ifs <;> omega
  have hstBad : decide (15 < r.slotType) = false := by
    rw [decide_eq_false_iff_not]
    omega
  have hegoBad : ((r.eMods.map
      (fun m => if 0 < m then m + 20000 + n * 100 else 0)).any
      (fun e => decide (0 < e ∧ (e < 20000 ∨ 99999 < e)))) = false := by
    rw [List.any_map, List.any_eq_false]
    intro m hmem
    have := hm m hmem
    simp only [Function.comp_apply, decide_eq_true_eq]
    split_ifs <;> omega
  have hegos : (r.eMods.map
        (fun m => if 0 < m then m + 20000 + n * 100 else 0)).map
        (fun e => if 0 < e ∧ (e < 20000 ∨ 99999 < e) then 0 else e)
      = r.eMods.map (fun m => if 0 < m then m + 20000 + n * 100 else 0) := by
    rw [List.map_map]
    apply List.map_congr_left
    intro m hmem
    have := hm m hmem
    simp only [Function.comp_apply]
    split_ifs <;> omega
  simp only [hpBad, hstBad, hegoBad, hegos, Bool.and_false, Bool.false_or,
    Bool.or_false, Bool.or_self, if_false, ite_self, Bool.false_eq_true]
  split_ifs <;> rfl

/-! ## The decode loop on arbitrary bit buffers -/

theorem processSlot_snd_false (n : Nat) (r : RawSlot) (v : Bool)
    (hp : r.pMod < 128) (hst : r.slotType < 16) (hm : ∀ m ∈ r.eMods, m < 128)
    (hn : n ≤ 12) : (processSlot n r v).2 = false := by
  rw [processSlot_eval n r v hp hst hm hn]

theorem readBitsAux_lt (bools : List Bool) :
    ∀ (cnt acc idx : Nat), (readBitsAux bools acc idx cnt).1 < (acc + 1) * 2 ^ cnt := by
  intro cnt
  induction cnt with
  | zero =>
    intro acc idx
    simp [readBitsAux]
  | succ k ih =>
    intro acc idx
    simp only [readBitsAux]
    rcases Nat.lt_or_ge idx bools.length with h | h
    · rw [if_pos h]
      have hstep := ih (acc * 2 + (if bools.getD idx false then 1 else 0)) (idx + 1)
      have h2 : acc * 2 + (if bools.getD idx false then 1 else 0) + 1 ≤ (acc + 1) * 2 := by
        split_ifs <;> omega
      calc (readBitsAux bools (acc * 2 + (if bools.getD idx false then 1 else 0))
              (idx + 1) k).1
          < (acc * 2 + (if bools.getD idx false then 1 else 0) + 1) * 2 ^ k := hstep
        _ ≤ ((acc + 1) * 2) * 2 ^ k := Nat.mul_le_mul_right _ h2
        _ = (acc + 1) * 2 ^ (k + 1) := by rw [pow_succ]; ring
    · rw [if_neg (by omega)]
      have hstep := ih acc idx
      calc (readBitsAux bools acc idx k).1 < (acc + 1) * 2 ^ k := hstep
        _ ≤ (acc + 1) * 2 ^ (k + 1) :=
          Nat.mul_le_mul_left _ (Nat.pow_le_pow_right (by omega) (by omega))

theorem readSlot_bounds (bools : List Bool) (idx : Nat) :
    (readSlot bools idx).1.pMod < 128 ∧ (readSlot bools idx).1.slotType < 16 ∧
      ∀ m ∈ (readSlot bools idx).1.eMods, m < 128 := by
  unfold readSlot
  refine ⟨?_, ?_, ?_⟩
  · simpa using readBitsAux_lt bools 7 0 idx
  · simpa using readBitsAux_lt bools 4 0 _
  · intro m hm
    simp only [List.mem_cons, List.not_mem_nil, or_false] at hm
    rcases hm with rfl | rfl | rfl | rfl | rfl <;> simpa using readBitsAux_lt bools 7 0 _

theorem decodeSlots_snd_false (bools : List Bool) (v : Bool) :
    ∀ (ns : List Nat) (idx : Nat), (∀ n ∈ ns, n ≤ 12) →
      (decodeSlots bools v ns idx).2 = false := by
  intro ns
  induction ns with
  | nil =>
    intro idx h
    rfl
  | cons n t ih =>
    intro idx h
    obtain ⟨hp, hst, hm⟩ := readSlot_bounds bools idx
    simp only [decodeSlots]
    rw [processSlot_snd_false n _ v hp hst hm (h n (by simp)),
      ih _ (fun x hx => h x (by simp [hx]))]
    rfl

theorem rawsFrom_length (bools : List Bool) :
    ∀ (cnt idx : Nat), (rawsFrom bools idx cnt).length = cnt := by
  intro cnt
  induction cnt with
  | zero =>
    intro idx
    rfl
  | succ k ih =>
    intro idx
    simp only [rawsFrom, List.length_cons, ih]

theorem decodeSlots_fst (bools : List Bool) (v : Bool) :
    ∀ (ns : List Nat) (idx : Nat),
      (decodeSlots bools v ns idx).1
        = (ns.zip (rawsFrom bools idx ns.length)).filterMap
            (fun q => (processSlot q.1 q.2 v).1) := by
  intro ns
  induction ns with
  | nil =>
    intro idx
    rfl
  | cons n t ih =>
    intro idx
    simp only [decodeSlots, List.length_cons, rawsFrom, List.zip_cons_cons,
      List.filterMap_cons, ih]
    cases hpe : (processSlot n (readSlot bools idx).1 v).1 <;> simp [hpe]

theorem list_any_pos_map (n : Nat) (ms : List Nat) :
    ((ms.map (fun m => if 0 < m then m + 20000 + n * 100 else 0)).any
      (fun e => decide (0 < e))) = ms.any (fun m => decide (0 < m)) := by
  induction ms with
  | nil => rfl
  | cons m t ih =>
    simp only [List.map_cons, List.any_cons, ih]
    congr 1
    by_cases h : 0 < m
    · rw [if_pos h]
      simp only [decide_eq_true_eq] at h ⊢
      rw [decide_eq_true (by omega), decide_eq_true h]
    · have h0 : m = 0 := by omega
      subst h0
      simp

theorem processSlot_fst_some (n : Nat) (r : RawSlot) (v : Bool)
    (f : FormationDetailInfo) (hp : r.pMod < 128) (hst : r.slotType < 16)
    (hm : ∀ m ∈ r.eMods, m < 128) (hn : n ≤ 12)
    (h : (processSlot n r v).1 = some f) :
    f.slot = (n : Int) ∧
      (0 < r.pMod ∨ r.eMods.any (fun m => decide (0 < m)) = true) := by
  rw [processSlot_eval n r v hp hst hm hn] at h
  by_cases hc : 0 < r.pMod ∨ ((r.eMods.map
      (fun m => if 0 < m then m + 20000 + n * 100 else 0)).any
      (fun e => decide (0 < e))) = true
  · rw [if_pos hc] at h
    refine ⟨?_, ?_⟩
    · cases h
      rfl
    · rw [list_any_pos_map] at hc
      exact hc
  · rw [if_neg hc] at h
    exact absurd h (by simp)

theorem processSlot_fst_isSome (n : Nat) (r : RawSlot) (v : Bool)
    (hp : r.pMod < 128) (hst : r.slotType < 16)
    (hm : ∀ m ∈ r.eMods, m < 128) (hn : n ≤ 12)
    (hcond : 0 < r.pMod ∨ r.eMods.any (fun m => decide (0 < m)) = true) :
    ∃ f, (processSlot n r v).1 = some f := by
  rw [processSlot_eval n r v hp hst hm hn]
  rw [← list_any_pos_map n r.eMods] at hcond
  rw [if_pos hcond]
  exact ⟨_, rfl⟩

theorem decodeSlots_mem_slot (bools : List Bool) (v : Bool) :
    ∀ (ns : List Nat) (idx : Nat) (f : FormationDetailInfo),
      (∀ n ∈ ns, n ≤ 12) →
      f ∈ (decodeSlots bools v ns idx).1 → ∃ n ∈ ns, f.slot = (n : Int) := by
  intro ns
  induction ns with
  | nil =>
    intro idx f _ hf
    exact absurd hf (by simp [decodeSlots])
  | cons n t ih =>
    intro idx f hns hf
    obtain ⟨hp, hst, hm⟩ := readSlot_bounds bools idx
    simp only [decodeSlots] at hf
    rcases hpe : (processSlot n (readSlot bools idx).1 v).1 with _ | g
    · rw [hpe] at hf
      obtain ⟨n2, hn2, hslot⟩ := ih _ f (fun x hx => hns x (by simp [hx])) hf
      exact ⟨n2, by simp [hn2], hslot⟩
    · rw [hpe] at hf
      rcases List.mem_cons.mp hf with rfl | hmem
      · exact ⟨n, by simp,
          (processSlot_fst_some n _ v f hp hst hm (hns n (by simp)) hpe).1⟩
      · obtain ⟨n2, hn2, hslot⟩ := ih _ f (fun x hx => hns x (by simp [hx])) hmem
        exact ⟨n2, by simp [hn2], hslot⟩

theorem decodeSlots_pairwise (bools : List Bool) (v : Bool) :
    ∀ (ns : List Nat) (idx : Nat), (∀ n ∈ ns, n ≤ 12) →
      List.Pairwise (· < ·) ns →
      List.Pairwise (fun a b => a.slot < b.slot) (decodeSlots bools v ns idx).1 := by
  intro ns
  induction ns with
  | nil =>
    intro idx _ _
    exact List.Pairwise.nil
  | cons n t ih =>
    intro idx hns hpw
    obtain ⟨hp, hst, hm⟩ := readSlot_bounds bools idx
    rw [List.pairwise_cons] at hpw
    simp only [decodeSlots]
    rcases hpe : (processSlot n (readSlot bools idx).1 v).1 with _ | g
    · exact ih _ (fun x hx => hns x (by simp [hx])) hpw.2
    · rw [List.pairwise_cons]
      refine ⟨?_, ih _ (fun x hx => hns x (by simp [hx])) hpw.2⟩
      intro f hf
      obtain ⟨n2, hn2, hslot⟩ := decodeSlots_mem_slot bools v t _ f
        (fun x hx => hns x (by simp [hx])) hf
      have hgslot := (processSlot_fst_some n _ v g hp hst hm (hns n (by simp)) hpe).1
      rw [hgslot, hslot]
      exact_mod_cast hpw.1 n2 hn2

/-! ## Decode output ranges and the unreachable validation branches -/

theorem processSlot_rangeOk (n : Nat) (r : RawSlot) (v : Bool)
    (hp : r.pMod < 128) (hst : r.slotType < 16) (hm : ∀ m ∈ r.eMods, m < 128)
    (hn1 : 1 ≤ n) (hn : n ≤ 12) (f : FormationDetailInfo)
    (h : (processSlot n r v).1 = some f) : rangeOk f = true := by
  rw [processSlot_eval n r v hp hst hm hn] at h
  by_cases hc : 0 < r.pMod ∨ ((r.eMods.map
      (fun m => if 0 < m then m + 20000 + n * 100 else 0)).any
      (fun e => decide (0 < e))) = true
  · rw [if_pos hc] at h
    have hego : ∀ i : Nat,
        (r.eMods.map (fun m => if 0 < m then m + 20000 + n * 100 else 0)).getD i 0 = 0 ∨
        (20101 ≤ (r.eMods.map (fun m => if 0 < m then m + 20000 + n * 100 else 0)).getD i 0 ∧
         (r.eMods.map (fun m => if 0 < m then m + 20000 + n * 100 else 0)).getD i 0 ≤ 21327) := by
      intro i
      rcases Nat.lt_or_ge i (r.eMods.map
          (fun m => if 0 < m then m + 20000 + n * 100 else 0)).length with hi | hi
      · rw [List.getD_eq_getElem _ _ hi]
        have hmem := List.getElem_mem hi
        rcases List.mem_map.mp hmem with ⟨m, hm2, heq⟩
        have hb := hm m hm2
        rw [← heq]
        split_ifs <;> omega
      · rw [List.getD_eq_default _ _ hi]
        exact Or.inl rfl
    have hpid : (if 0 < r.pMod then r.pMod + 10000 + n * 100 else 0) = 0 ∨
        (10101 ≤ (if 0 < r.pMod then r.pMod + 10000 + n * 100 else 0) ∧
         (if 0 < r.pMod then r.pMod + 10000 + n * 100 else 0) ≤ 11327) := by
      split_ifs <;> omega
    cases h
    unfold rangeOk
    rw [decide_eq_true_eq]
    dsimp only
    have he0 := hego 0
    have he1 := hego 1
    have he2 := hego 2
    have he3 := hego 3
    have he4 := hego 4
    refine ⟨by omega, by omega, by omega, by omega, by omega, by omega,
      by omega, by omega⟩
  · rw [if_neg hc] at h
    exact absurd h (by simp)

theorem decodeSlots_rangeOk (bools : List Bool) (v : Bool) :
    ∀ (ns : List Nat) (idx : Nat), (∀ n ∈ ns, 1 ≤ n ∧ n ≤ 12) →
      ∀ f ∈ (decodeSlots bools v ns idx).1, rangeOk f = true := by
  intro ns
  induction ns with
  | nil =>
    intro idx _ f hf
    exact absurd hf (by simp [decodeSlots])
  | cons n t ih =>
    intro idx hns f hf
    obtain ⟨hp, hst, hm⟩ := readSlot_bounds bools idx
    simp only [decodeSlots] at hf
    rcases hpe : (processSlot n (readSlot bools idx).1 v).1 with _ | g
    · rw [hpe] at hf
      exact ih _ (fun x hx => hns x (by simp [hx])) f hf
    · rw [hpe] at hf
      rcases List.mem_cons.mp hf with rfl | hmem
      · exact processSlot_rangeOk n _ v hp hst hm (hns n (by simp)).1
          (hns n (by simp)).2 f hpe
      · exact ih _ (fun x hx => hns x (by simp [hx])) f hmem

theorem slotNums_bounds : ∀ n ∈ slotNums, 1 ≤ n ∧ n ≤ 12 := by
  decide

theorem decode_eq (s : List Nat) (v : Bool) :
    FormationDeckCode.decode s v =
      if deckBits s = [] then ([], false)
      else decodeSlots (deckBits s) v slotNums 1 := by
  unfold FormationDeckCode.decode deckBits
  by_cases hs : s = []
  · subst hs
    rw [if_pos rfl]
    have hd : TextCompressionUtility.decompress [] = [] := rfl
    simp [hd, BoolListBase64Converter.from_base64]
  · rw [if_neg hs]
    by_cases hi : TextCompressionUtility.decompress s = []
    · simp [hi, BoolListBase64Converter.from_base64]
    · simp [hi]

/-- C3: for every input string, decoding with `validate=true` reports
`hadErrors = false`, and every record it reconstructs satisfies the ranges
that would be checked (personality 0 or in [10101, 11327], equipment 0 or
in [20101, 21327], slot type in [0, 15]): all three validation-reset
branches are unreachable. -/
theorem decode_validation_unreachable (s : List Nat) :
    (FormationDeckCode.decode s true).2 = false ∧
    (FormationDeckCode.decode s true).1.all rangeOk = true := by
  rw [decode_eq]
  by_cases hb : deckBits s = []
  · rw [if_pos hb]
    exact ⟨rfl, rfl⟩
  · rw [if_neg hb]
    refine ⟨?_, ?_⟩
    · exact decodeSlots_snd_false _ _ slotNums 1
        (fun n hn => (slotNums_bounds n hn).2)
    · rw [List.all_eq_true]
      intro f hf
      exact decodeSlots_rangeOk _ _ slotNums 1 slotNums_bounds f hf

/-! ## Slot emission discipline (C5) -/

theorem rawsFrom_bounds (bools : List Bool) :
    ∀ (cnt idx : Nat) (r : RawSlot), r ∈ rawsFrom bools idx cnt →
      r.pMod < 128 ∧ r.slotType < 16 ∧ ∀ m ∈ r.eMods, m < 128 := by
  intro cnt
  induction cnt with
  | zero =>
    intro idx r hr
    exact absurd hr (by simp [rawsFrom])
  | succ k ih =>
    intro idx r hr
    simp only [rawsFrom] at hr
    rcases List.mem_cons.mp hr with rfl | hmem
    · exact readSlot_bounds bools idx
    · exact ih _ r hmem

theorem slotNums_length : slotNums.length = 12 := by
  decide

theorem slotNums_getElem (k : Nat) (h : k < slotNums.length) :
    slotNums[k] = k + 1 := by
  simp [slotNums]

/-- C5: decode emits a record for deck position `n` exactly when that
position's personality modulus or at least one of its equipment moduli is
positive (an all-zero slot is omitted entirely), and the emitted records
appear in ascending slot order. -/
theorem decode_emission (s : List Nat) (v : Bool) (n : Nat)
    (h1 : 1 ≤ n) (h2 : n ≤ 12) :
    ((∃ f ∈ (FormationDeckCode.decode s v).1, f.slot = (n : Int)) ↔
      (0 < (rawAt (deckBits s) n).pMod ∨
        (rawAt (deckBits s) n).eMods.any (fun m => decide (0 < m)) = true)) ∧
    List.Pairwise (fun a b => a.slot < b.slot)
      (FormationDeckCode.decode s v).1 := by
  rw [decode_eq]
  by_cases hb : deckBits s = []
  · rw [if_pos hb, hb]
    constructor
    · constructor
      · rintro ⟨f, hf, _⟩
        exact absurd hf (by simp)
      · intro hcond
        have hz : rawAt [] n = rawZero := by
          unfold rawAt
          rw [show rawsFrom [] 1 12 = List.replicate 12 rawZero from by decide]
          rcases Nat.lt_or_ge (n - 1) 12 with hk | hk
          · rw [List.getD_eq_getElem _ _ (by simpa using hk), List.getElem_replicate]
          · rw [List.getD_eq_default _ _ (by simpa using hk)]
        rw [hz] at hcond
        rcases hcond with hc | hc
        · exact absurd hc (by decide)
        · exact absurd hc (by decide)
    · exact List.Pairwise.nil
  · rw [if_neg hb]
    have hlenraws : (rawsFrom (deckBits s) 1 12).length = 12 :=
      rawsFrom_length (deckBits s) 12 1
    have hk12 : n - 1 < 12 := by omega
    have hltn : n - 1 < (rawsFrom (deckBits s) 1 12).length := by omega
    have hrget : rawAt (deckBits s) n
        = (rawsFrom (deckBits s) 1 12)[n - 1] := by
      unfold rawAt
      rw [List.getD_eq_getElem _ _ (by omega)]
    have hmemAt : rawAt (deckBits s) n ∈ rawsFrom (deckBits s) 1 12 := by
      rw [hrget]
      exact List.getElem_mem (by omega)
    obtain ⟨hbp, hbst, hbm⟩ := rawsFrom_bounds (deckBits s) 12 1 _ hmemAt
    constructor
    · constructor
      · rintro ⟨f, hf, hslot⟩
        rw [decodeSlots_fst] at hf
        simp only [slotNums_length] at hf
        rcases List.mem_filterMap.mp hf with ⟨q, hq, hpe⟩
        rcases List.mem_iff_getElem.mp hq with ⟨k, hk, hget⟩
        have hk12b : k < 12 := by
          simp only [List.length_zip, slotNums_length, hlenraws] at hk
          omega
        rw [List.getElem_zip] at hget
        obtain ⟨n1, r1⟩ := q
        have hn1 : n1 = k + 1 := by
          have hfst := congrArg Prod.fst hget
          simp only at hfst
          rw [← hfst]
          exact slotNums_getElem k (by rw [slotNums_length]; omega)
        have hltk : k < (rawsFrom (deckBits s) 1 12).length := by omega
        have hr1 : r1 = (rawsFrom (deckBits s) 1 12)[k] := by
          have hsnd := congrArg Prod.snd hget
          simp only at hsnd
          rw [← hsnd]
        have hmem1 : r1 ∈ rawsFrom (deckBits s) 1 12 := by
          rw [hr1]
          exact List.getElem_mem (by omega)
        obtain ⟨hp2, hst2, hm2⟩ := rawsFrom_bounds (deckBits s) 12 1 r1 hmem1
        obtain ⟨hfs, hcond⟩ := processSlot_fst_some n1 r1 v f hp2 hst2 hm2
          (by omega) hpe
        have hnn : n1 = n := by
          rw [hfs] at hslot
          exact_mod_cast hslot
        have hkn : k = n - 1 := by omega
        have hrr : r1 = rawAt (deckBits s) n := by
          rw [hrget, hr1]
          subst hkn
          rfl
        rw [← hrr]
        exact hcond
      · intro hcond
        obtain ⟨f, hpe⟩ := processSlot_fst_isSome n _ v hbp hbst hbm h2 hcond
        refine ⟨f, ?_, ?_⟩
        · rw [decodeSlots_fst]
          simp only [slotNums_length]
          apply List.mem_filterMap.mpr
          refine ⟨(n, rawAt (deckBits s) n), ?_, hpe⟩
          apply List.mem_iff_getElem.mpr
          refine ⟨n - 1, ?_, ?_⟩
          · simp only [List.length_zip, slotNums_length, hlenraws]
            omega
          · rw [List.getElem_zip]
            simp only [Prod.mk.injEq]
            constructor
            · rw [slotNums_getElem (n - 1) (by rw [slotNums_length]; omega)]
              omega
            · rw [hrget]
        · exact (processSlot_fst_some n _ v f hbp hbst hbm h2 hpe).1
    · exact decodeSlots_pairwise (deckBits s) v slotNums 1
        (fun x hx => (slotNums_bounds x hx).2) (by decide)

/-- C5 witness: the emission equivalence and ordering at the empty input
and position 1. -/
theorem decode_emission_witness :
    ((∃ f ∈ (FormationDeckCode.decode [] false).1, f.slot = ((1 : Nat) : Int)) ↔
      (0 < (rawAt (deckBits []) 1).pMod ∨
        (rawAt (deckBits []) 1).eMods.any (fun m => decide (0 < m)) = true)) ∧
    List.Pairwise (fun a b => a.slot < b.slot)
      (FormationDeckCode.decode [] false).1 :=
  decode_emission [] false 1 (by decide) (by decide)


/-! ## The standard encode path and its decoding -/

theorem decodeSlots_blocks :
    ∀ (items : List (Nat × Option FormationDetailInfo)) (pre post bools : List Bool)
      (v : Bool),
      (∀ q ∈ items, ∀ f, q.2 = some f → 0 ≤ f.slot_type ∧ f.slot_type ≤ 15) →
      (∀ q ∈ items, q.1 ≤ 12) →
      bools = pre ++ items.flatMap (fun q => encodeSlotBits q.2) ++ post →
      decodeSlots bools v (items.map Prod.fst) pre.length
        = (items.flatMap (fun q => ((processSlot q.1 (rawOf q.2) v).1).toList),
           false) := by
  intro items
  induction items with
  | nil =>
    intro pre post bools v h1 h2 hB
    rfl
  | cons q rest ih =>
    intro pre post bools v h1 h2 hB
    obtain ⟨n, fo⟩ := q
    have hread : readSlot bools pre.length = (rawOf fo, pre.length + 46) :=
      readSlot_block fo bools pre
        (rest.flatMap (fun q => encodeSlotBits q.2) ++ post)
        (fun f hf => h1 (n, fo) (by simp) f hf)
        (by rw [hB]; simp [List.flatMap_cons, List.append_assoc])
    have hlen : pre.length + 46 = (pre ++ encodeSlotBits fo).length := by
      simp [List.length_append, encodeSlotBits_length]
    have htail : decodeSlots bools v (rest.map Prod.fst)
        (pre ++ encodeSlotBits fo).length
        = (rest.flatMap (fun q => ((processSlot q.1 (rawOf q.2) v).1).toList),
           false) :=
      ih (pre ++ encodeSlotBits fo) post bools v
        (fun q hq f hf => h1 q (by simp [hq]) f hf)
        (fun q hq => h2 q (by simp [hq]))
        (by rw [hB]; simp [List.flatMap_cons, List.append_assoc])
    obtain ⟨hbp, hbst, hbm⟩ :=
      rawOf_bounds fo (fun f hf => h1 (n, fo) (by simp) f hf)
    have hsnd : (processSlot n (rawOf fo) v).2 = false :=
      processSlot_snd_false n _ v hbp hbst hbm (h2 (n, fo) (by simp))
    rw [← hlen] at htail
    simp only [List.map_cons, decodeSlots, hread, htail, hsnd, List.flatMap_cons]
    cases hpe : (processSlot n (rawOf fo) v).1 <;> simp [hpe]

theorem formationMap_mem (fs : List FormationDetailInfo) (n : Int)
    (g : FormationDetailInfo) (h : formationMap fs n = some g) :
    g ∈ fs ∧ g.slot = n := by
  unfold formationMap at h
  refine ⟨List.mem_reverse.mp (List.mem_of_find?_eq_some h), ?_⟩
  have := List.find?_some h
  simpa using this

theorem find?_slot_unique (g : FormationDetailInfo) :
    ∀ (l : List FormationDetailInfo), (l.map (fun f => f.slot)).Nodup → g ∈ l →
      l.find? (fun f => decide (f.slot = g.slot)) = some g := by
  intro l
  induction l with
  | nil =>
    intro _ h
    exact absurd h (by simp)
  | cons a t ih =>
    intro hnd hmem
    rw [List.map_cons, List.nodup_cons] at hnd
    by_cases hpa : a.slot = g.slot
    · rcases List.mem_cons.mp hmem with rfl | hgt
      · simp [List.find?_cons]
      · exact absurd (hpa ▸ List.mem_map_of_mem _ hgt) hnd.1
    · have hgt : g ∈ t := by
        rcases List.mem_cons.mp hmem with rfl | h
        · exact absurd rfl hpa
        · exact h
      rw [List.find?_cons_of_neg _ (by simpa using hpa)]
      exact ih hnd.2 hgt

theorem formationMap_eq_some (fs : List FormationDetailInfo)
    (hnd : (fs.map (fun f => f.slot)).Nodup) (g : FormationDetailInfo)
    (hg : g ∈ fs) : formationMap fs g.slot = some g := by
  unfold formationMap
  exact find?_slot_unique g fs.reverse
    (by rw [List.map_reverse, List.nodup_reverse]; exact hnd)
    (List.mem_reverse.mpr hg)

theorem encodeBits_ne_nil (fs : List FormationDetailInfo) :
    encodeBits fs ≠ [] := by
  unfold encodeBits
  simp

theorem encodeBits_length_553 (fs : List FormationDetailInfo) :
    (encodeBits fs).length = 553 := by
  unfold encodeBits
  rw [List.length_cons, List.length_flatMap]
  have hmap : (slotNums.map
      (List.length ∘ fun (n : Nat) => encodeSlotBits (formationMap fs (n : Int))))
      = slotNums.map (fun _ => 46) :=
    List.map_congr_left (fun n _ => by
      simp [Function.comp, encodeSlotBits_length])
  rw [hmap]
  decide

theorem encode_standard (fs : List FormationDetailInfo) (hne : fs ≠ []) :
    FormationDeckCode.encode fs false =
      .ok (TextCompressionUtility.compress
        (b64EncodeBytes (boolsToBytes (encodeBits fs)))) := by
  unfold FormationDeckCode.encode
  rw [if_neg hne]
  have hb : BoolListBase64Converter.to_base64 (encodeBits fs)
      = b64EncodeBytes (boolsToBytes (encodeBits fs)) := by
    unfold BoolListBase64Converter.to_base64
    rw [if_neg (encodeBits_ne_nil fs)]
  simp [hb]

theorem deckBits_encode (fs : List FormationDetailInfo) :
    deckBits (TextCompressionUtility.compress
      (b64EncodeBytes (boolsToBytes (encodeBits fs)))) = encodeBits fs := by
  have hbytes_lt := boolsToBytes_lt (encodeBits fs)
  have hbytes_ne : boolsToBytes (encodeBits fs) ≠ [] := by
    have hlen := boolsToBytes_length (encodeBits fs)
    rw [encodeBits_length_553] at hlen
    intro hc
    rw [hc] at hlen
    simp at hlen
  have hpayload_ne : b64EncodeBytes (boolsToBytes (encodeBits fs)) ≠ [] :=
    b64EncodeBytes_ne_nil _ hbytes_ne
  have hpayload_ascii := b64Encode_lt128 (boolsToBytes (encodeBits fs))
  have hdecomp := decompress_compress _ hpayload_ne hpayload_ascii
  unfold deckBits
  rw [hdecomp]
  unfold BoolListBase64Converter.from_base64
  rw [if_neg hpayload_ne, b64_roundtrip _ hbytes_lt]
  have h553 := bytesToBits_boolsToBytes (encodeBits fs)
  rw [encodeBits_length_553] at h553
  exact h553

theorem deckItems_map_fst (fs : List FormationDetailInfo) :
    ((slotNums.map (fun (n : Nat) => (n, formationMap fs (n : Int)))).map Prod.fst)
      = slotNums := by
  have hcomp : (Prod.fst ∘ fun (n : Nat) => (n, formationMap fs (n : Int))) = id := by
    funext n
    rfl
  rw [List.map_map, hcomp, List.map_id]

theorem encodeBits_blocks (fs : List FormationDetailInfo) :
    encodeBits fs = [true] ++
      (slotNums.map (fun (n : Nat) => (n, formationMap fs (n : Int)))).flatMap
        (fun q => encodeSlotBits q.2) ++ [] := by
  unfold encodeBits
  rw [List.flatMap_map]
  simp [Function.comp]

/-- Decoding the standard encoding: the output is the per-position emission
of the positional map, with no errors. -/
theorem decode_encode_standard (fs : List FormationDetailInfo) (hne : fs ≠ [])
    (hst : ∀ f ∈ fs, 0 ≤ f.slot_type ∧ f.slot_type ≤ 15) (v : Bool) :
    ∃ code, FormationDeckCode.encode fs false = .ok code ∧
      FormationDeckCode.decode code v =
        ((slotNums.map (fun (n : Nat) => (n, formationMap fs (n : Int)))).flatMap
          (fun q => ((processSlot q.1 (rawOf q.2) v).1).toList), false) := by
  refine ⟨_, encode_standard fs hne, ?_⟩
  rw [decode_eq, deckBits_encode fs,
    if_neg (encodeBits_ne_nil fs)]
  have hblocks := decodeSlots_blocks
    (slotNums.map (fun (n : Nat) => (n, formationMap fs (n : Int)))) [true] []
    (encodeBits fs) v
    (by
      intro q hq f hf
      rcases List.mem_map.mp hq with ⟨n, _, rfl⟩
      obtain ⟨hgf, _⟩ := formationMap_mem fs (n : Int) f hf
      exact hst f hgf)
    (by
      intro q hq
      rcases List.mem_map.mp hq with ⟨n, hn, rfl⟩
      exact (slotNums_bounds n hn).2)
    (encodeBits_blocks fs)
  rw [deckItems_map_fst] at hblocks
  exact hblocks


/-! ## Reconstruction arithmetic for decomposable IDs -/

theorem processSlot_rawZero (n : Nat) (v : Bool) (hn : n ≤ 12) :
    (processSlot n rawZero v).1 = none := by
  rw [show rawZero = (⟨0, 0, [0, 0, 0, 0, 0]⟩ : RawSlot) from rfl,
    processSlot_eval n _ v (by norm_num) (by norm_num)
      (by intro m hm; simp at hm; omega) hn]
  rw [if_neg (by simp)]

theorem wireMod_decomp (slotI base vI : Int) (hs1 : 1 ≤ slotI)
    (hs2 : slotI ≤ 12) (hbase : base = 10000 ∨ base = 20000)
    (hd : validDecomp base slotI vI) :
    (vI = 0 ∧ (wireMod vI).toNat = 0) ∨
    (vI ≠ 0 ∧ 1 ≤ (wireMod vI).toNat ∧ (wireMod vI).toNat ≤ 99 ∧
      (((wireMod vI).toNat : Int) + base + slotI * 100 = vI)) := by
  unfold validDecomp at hd
  rcases hd with rfl | ⟨hlo, hhi⟩
  · left
    exact ⟨rfl, by simp [wireMod]⟩
  · right
    have hpos : 0 < vI := by omega
    have hw : wireMod vI = vI % 100 := by rw [wireMod, if_pos hpos]
    rw [hw]
    refine ⟨by omega, by omega, by omega, by omega⟩

set_option maxHeartbeats 1000000 in
theorem processSlot_rawOf_decomp (n : Nat) (g : FormationDetailInfo) (v : Bool)
    (hn1 : 1 ≤ n) (hn : n ≤ 12) (hgslot : g.slot = (n : Int))
    (hfields : validSlotFields g) :
    (processSlot n (rawOf (some g)) v).1 =
      if slotNonempty g then some (decodedView g) else none := by
  obtain ⟨gs, gp, ge1, ge2, ge3, ge4, ge5, gen, gst⟩ := g
  obtain ⟨hs1, hs2, hst0, hst15, hdp, hd1, hd2, hd3, hd4, hd5⟩ := hfields
  simp only at hs1 hs2 hst0 hst15 hdp hd1 hd2 hd3 hd4 hd5 hgslot
  rw [hgslot] at hdp hd1 hd2 hd3 hd4 hd5
  have Hp := wireMod_decomp (n : Int) 10000 gp (by exact_mod_cast hn1)
    (by exact_mod_cast hn) (Or.inl rfl) hdp
  have H1 := wireMod_decomp (n : Int) 20000 ge1 (by exact_mod_cast hn1)
    (by exact_mod_cast hn) (Or.inr rfl) hd1
  have H2 := wireMod_decomp (n : Int) 20000 ge2 (by exact_mod_cast hn1)
    (by exact_mod_cast hn) (Or.inr rfl) hd2
  have H3 := wireMod_decomp (n : Int) 20000 ge3 (by exact_mod_cast hn1)
    (by exact_mod_cast hn) (Or.inr rfl) hd3
  have H4 := wireMod_decomp (n : Int) 20000 ge4 (by exact_mod_cast hn1)
    (by exact_mod_cast hn) (Or.inr rfl) hd4
  have H5 := wireMod_decomp (n : Int) 20000 ge5 (by exact_mod_cast hn1)
    (by exact_mod_cast hn) (Or.inr rfl) hd5
  set p0 := (wireMod gp).toNat with hp0
  set m1 := (wireMod ge1).toNat with hm1
  set m2 := (wireMod ge2).toNat with hm2
  set m3 := (wireMod ge3).toNat with hm3
  set m4 := (wireMod ge4).toNat with hm4
  set m5 := (wireMod ge5).toNat with hm5
  rw [rawOf_some]
  simp only
  have hbp : p0 < 128 := by
    have := wireMod_toNat_lt gp
    omega
  have hbst : gst.toNat < 16 := by omega
  have hbm : ∀ m ∈ [m1, m2, m3, m4, m5], m < 128 := by
    intro m hm
    have l1 := wireMod_toNat_lt ge1
    have l2 := wireMod_toNat_lt ge2
    have l3 := wireMod_toNat_lt ge3
    have l4 := wireMod_toNat_lt ge4
    have l5 := wireMod_toNat_lt ge5
    simp at hm
    rcases hm with rfl | rfl | rfl | rfl | rfl <;> omega
  rw [processSlot_eval n _ v hbp hbst hbm hn]
  simp only
  rw [list_any_pos_map]
  have hcond : (0 < p0 ∨
      (([m1, m2, m3, m4, m5] : List Nat).any
        (fun m => decide (0 < m))) = true) ↔
      slotNonempty ⟨gs, gp, ge1, ge2, ge3, ge4, ge5, gen, gst⟩ := by
    unfold slotNonempty
    simp only [List.any_cons, List.any_nil, Bool.or_eq_true,
      decide_eq_true_eq, Bool.false_eq_true, or_false]
    omega
  by_cases hne2 : slotNonempty ⟨gs, gp, ge1, ge2, ge3, ge4, ge5, gen, gst⟩
  · rw [if_pos (hcond.mpr hne2), if_pos hne2]
    have e1 : (([m1, m2, m3, m4, m5] : List Nat).map
        (fun m => if 0 < m then m + 20000 + n * 100 else 0)).getD 0 0
        = (if 0 < m1 then m1 + 20000 + n * 100 else 0) := rfl
    have e2 : (([m1, m2, m3, m4, m5] : List Nat).map
        (fun m => if 0 < m then m + 20000 + n * 100 else 0)).getD 1 0
        = (if 0 < m2 then m2 + 20000 + n * 100 else 0) := rfl
    have e3 : (([m1, m2, m3, m4, m5] : List Nat).map
        (fun m => if 0 < m then m + 20000 + n * 100 else 0)).getD 2 0
        = (if 0 < m3 then m3 + 20000 + n * 100 else 0) := rfl
    have e4 : (([m1, m2, m3, m4, m5] : List Nat).map
        (fun m => if 0 < m then m + 20000 + n * 100 else 0)).getD 3 0
        = (if 0 < m4 then m4 + 20000 + n * 100 else 0) := rfl
    have e5 : (([m1, m2, m3, m4, m5] : List Nat).map
        (fun m => if 0 < m then m + 20000 + n * 100 else 0)).getD 4 0
        = (if 0 < m5 then m5 + 20000 + n * 100 else 0) := rfl
    rw [e1, e2, e3, e4, e5]
    clear e1 e2 e3 e4 e5 hcond hbm hdp hd1 hd2 hd3 hd4 hd5
    unfold decodedView
    simp only [Option.some.injEq, FormationDetailInfo.mk.injEq]
    refine ⟨hgslot.symm, ?_, ?_, ?_, ?_, ?_, ?_, ?_, by omega⟩
    · split_ifs <;> omega
    · split_ifs <;> omega
    · split_ifs <;> omega
    · split_ifs <;> omega
    · split_ifs <;> omega
    · split_ifs <;> omega
    · rw [decide_eq_decide]
      omega
  · rw [if_neg (fun hc => hne2 (hcond.mp hc)), if_neg hne2]

theorem decode_pairwise (s : List Nat) (v : Bool) :
    List.Pairwise (fun a b => a.slot < b.slot) (FormationDeckCode.decode s v).1 := by
  rw [decode_eq]
  by_cases hb : deckBits s = []
  · rw [if_pos hb]
    exact List.Pairwise.nil
  · rw [if_neg hb]
    exact decodeSlots_pairwise _ v slotNums 1
      (fun x hx => (slotNums_bounds x hx).2) (by decide)

/-! ## C1: the standard round trip -/

/-- C1 (amended): for slot lists with pairwise-distinct slot numbers in
1..12, slot types in [0, 15], and every nonzero ID decomposing as
`slot * 100 + base + m` with wire modulus `m` in [1, 99], decoding the
standard encoding reproduces exactly the nonempty slots, with identical
`personality_id`, `ego1..ego5` and `slot_type`, `enabled` derived as
`slot_type > 0`, in ascending slot order and with no errors. -/
theorem roundtrip_standard (fs : List FormationDetailInfo) (v : Bool)
    (hnd : (fs.map (fun f => f.slot)).Nodup)
    (hv : ∀ f ∈ fs, validSlotFields f) :
    ∃ code, FormationDeckCode.encode fs false = .ok code ∧
      (FormationDeckCode.decode code v).2 = false ∧
      (∀ f, f ∈ (FormationDeckCode.decode code v).1 ↔
        ∃ g ∈ fs, slotNonempty g ∧ f = decodedView g) ∧
      List.Pairwise (fun a b => a.slot < b.slot)
        (FormationDeckCode.decode code v).1 := by
  by_cases hne : fs = []
  · subst hne
    refine ⟨[], rfl, rfl, ?_, ?_⟩
    · intro f
      constructor
      · intro hf
        exact absurd hf (by simp [FormationDeckCode.decode])
      · rintro ⟨g, hg, _⟩
        exact absurd hg (by simp)
    · exact decode_pairwise [] v
  · have hst : ∀ f ∈ fs, 0 ≤ f.slot_type ∧ f.slot_type ≤ 15 :=
      fun f hf => ⟨(hv f hf).2.2.1, (hv f hf).2.2.2.1⟩
    obtain ⟨code, hcode, hdec⟩ := decode_encode_standard fs hne hst v
    refine ⟨code, hcode, by rw [hdec], ?_, decode_pairwise code v⟩
    intro f
    rw [hdec]
    constructor
    · intro hf
      rcases List.mem_flatMap.mp hf with ⟨q, hq, hfq⟩
      rcases List.mem_map.mp hq with ⟨n, hns, rfl⟩
      rcases hfm : formationMap fs (n : Int) with _ | g
      · rw [hfm] at hfq
        rw [show rawOf none = rawZero from rfl,
          processSlot_rawZero n v (slotNums_bounds n hns).2] at hfq
        exact absurd hfq (by simp)
      · rw [hfm] at hfq
        obtain ⟨hgfs, hgslot⟩ := formationMap_mem fs _ g hfm
        rw [processSlot_rawOf_decomp n g v (slotNums_bounds n hns).1
          (slotNums_bounds n hns).2 hgslot (hv g hgfs)] at hfq
        by_cases hne2 : slotNonempty g
        · rw [if_pos hne2] at hfq
          simp only [Option.toList_some, List.mem_singleton] at hfq
          exact ⟨g, hgfs, hne2, hfq⟩
        · rw [if_neg hne2] at hfq
          exact absurd hfq (by simp)
    · rintro ⟨g, hgfs, hne2, rfl⟩
      apply List.mem_flatMap.mpr
      have hfields := hv g hgfs
      obtain ⟨hs1, hs2, _⟩ := hfields
      have hslotn : g.slot = ((g.slot.toNat : Nat) : Int) := by omega
      have hns : g.slot.toNat ∈ slotNums := by
        simp only [slotNums, List.mem_map, List.mem_range]
        exact ⟨g.slot.toNat - 1, by omega, by omega⟩
      refine ⟨(g.slot.toNat, formationMap fs ((g.slot.toNat : Nat) : Int)),
        List.mem_map_of_mem _ hns, ?_⟩
      have hfm : formationMap fs ((g.slot.toNat : Nat) : Int) = some g := by
        rw [← hslotn]
        exact formationMap_eq_some fs hnd g hgfs
      rw [hfm, processSlot_rawOf_decomp g.slot.toNat g v (by omega) (by omega)
        hslotn (hv g hgfs), if_pos hne2]
      simp

/-- C1 witness: the round trip at a deck with one fully-populated slot. -/
theorem roundtrip_standard_witness :
    ((([⟨1, 10101, 20101, 20102, 0, 0, 0, true, 1⟩] :
        List FormationDetailInfo).map (fun f => f.slot)).Nodup) ∧
    (∀ f ∈ ([⟨1, 10101, 20101, 20102, 0, 0, 0, true, 1⟩] :
        List FormationDetailInfo), validSlotFields f) ∧
    ∃ code, FormationDeckCode.encode
        [⟨1, 10101, 20101, 20102, 0, 0, 0, true, 1⟩] false = .ok code ∧
      (FormationDeckCode.decode code false).2 = false ∧
      (∀ f, f ∈ (FormationDeckCode.decode code false).1 ↔
        ∃ g ∈ ([⟨1, 10101, 20101, 20102, 0, 0, 0, true, 1⟩] :
          List FormationDetailInfo), slotNonempty g ∧ f = decodedView g) ∧
      List.Pairwise (fun a b => a.slot < b.slot)
        (FormationDeckCode.decode code false).1 :=
  ⟨by decide, by decide,
    roundtrip_standard [⟨1, 10101, 20101, 20102, 0, 0, 0, true, 1⟩] false
      (by decide) (by decide)⟩

/-- C1 counterexample: the slot record ⟨1, 10200, 0, 0, 0, 0, 0, true, 1⟩
is inside the §3 ranges of the claim (10200 decomposes as
1 * 100 + 10000 + 100 with modulus 100 in [0, 127]) and is nonempty, yet
decoding its standard encoding returns the empty slot list: the round trip
fails as stated. -/
theorem roundtrip_standard_counterexample :
    (10200 : Int) = 1 * 100 + 10000 + 100 ∧
    ((0 : Int) ≤ 100 ∧ (100 : Int) ≤ 127) ∧
    (10200 : Int) ≠ 0 ∧
    FormationDeckCode.decode
      ((FormationDeckCode.encode [⟨1, 10200, 0, 0, 0, 0, 0, true, 1⟩]
        false).toOption.getD []) false = ([], false) := by
  decide

/-! ## C2: an out-of-range personality ID survives validation -/

theorem flatMap_eq_nil_of (emit : Nat → List FormationDetailInfo) :
    ∀ (l : List Nat), (∀ k ∈ l, emit k = []) → l.flatMap emit = [] := by
  intro l
  induction l with
  | nil =>
    intro _
    rfl
  | cons a t ih =>
    intro h
    rw [List.flatMap_cons, h a (by simp), List.nil_append]
    exact ih (fun k hk => h k (by simp [hk]))

theorem flatMap_map_eq_nil
    (pairf : Nat → (Nat × Option FormationDetailInfo))
    (emitQ : (Nat × Option FormationDetailInfo) → List FormationDetailInfo) :
    ∀ (l : List Nat), (∀ k ∈ l, emitQ (pairf k) = []) →
      (l.map pairf).flatMap emitQ = [] := by
  intro l
  induction l with
  | nil =>
    intro _
    rfl
  | cons a t ih =>
    intro h
    rw [List.map_cons, List.flatMap_cons, h a (by simp), List.nil_append]
    exact ih (fun k hk => h k (by simp [hk]))

theorem flatMap_map_single
    (pairf : Nat → (Nat × Option FormationDetailInfo))
    (emitQ : (Nat × Option FormationDetailInfo) → List FormationDetailInfo) :
    ∀ (l : List Nat) (n : Nat), l.Nodup → n ∈ l →
      (∀ k ∈ l, k ≠ n → emitQ (pairf k) = []) →
      (l.map pairf).flatMap emitQ = emitQ (pairf n) := by
  intro l
  induction l with
  | nil =>
    intro n _ h
    exact absurd h (by simp)
  | cons a t ih =>
    intro n hnd hmem hz
    rw [List.nodup_cons] at hnd
    rw [List.map_cons, List.flatMap_cons]
    by_cases ha : a = n
    · subst ha
      rw [flatMap_map_eq_nil pairf emitQ t
        (fun k hk => hz k (by simp [hk]) (fun he => hnd.1 (he ▸ hk))),
        List.append_nil]
    · rw [hz a (by simp) ha, List.nil_append]
      refine ih n hnd.2 ?_ (fun k hk hkn => hz k (by simp [hk]) hkn)
      rcases List.mem_cons.mp hmem with rfl | h
      · exact absurd rfl ha
      · exact h

theorem formationMap_singleton_ne (f : FormationDetailInfo) (k : Int)
    (h : f.slot ≠ k) : formationMap [f] k = none := by
  unfold formationMap
  rw [List.find?_eq_none]
  intro x hx
  simp at hx
  subst hx
  simpa using h

/-- C2 (amended): encoding a slot whose `personality_id` is 99999999 (other
fields valid) and decoding with `validate=true` yields `hadErrors = false`,
and the personality comes back as the mod-100 reconstruction
`99 + 10000 + slot * 100` — it is not reset to 0. -/
theorem validation_personality_overflow (n : Nat) (e : Bool) (st : Int)
    (h1 : 1 ≤ n) (h2 : n ≤ 12) (h3 : 0 ≤ st) (h4 : st ≤ 15) :
    ∃ code, FormationDeckCode.encode
        [⟨(n : Int), 99999999, 0, 0, 0, 0, 0, e, st⟩] false = .ok code ∧
      FormationDeckCode.decode code true
        = ([⟨(n : Int), ((99 + 10000 + n * 100 : Nat) : Int), 0, 0, 0, 0, 0,
             decide (0 < st), st⟩], false) := by
  obtain ⟨code, hcode, hdec⟩ := decode_encode_standard
    [⟨(n : Int), 99999999, 0, 0, 0, 0, 0, e, st⟩] (by simp)
    (by intro f hf; simp at hf; subst hf; exact ⟨h3, h4⟩) true
  refine ⟨code, hcode, ?_⟩
  rw [hdec]
  have hsingle := flatMap_map_single
    (fun (k : Nat) => (k, formationMap
      [⟨(n : Int), 99999999, 0, 0, 0, 0, 0, e, st⟩] (k : Int)))
    (fun q => ((processSlot q.1 (rawOf q.2) true).1).toList)
    slotNums n (by decide)
    (by
      simp only [slotNums, List.mem_map, List.mem_range]
      exact ⟨n - 1, by omega, by omega⟩)
    (by
      intro k hk hkn
      simp only
      rw [formationMap_singleton_ne _ _ (by
        simp only
        intro hc
        exact hkn (by exact_mod_cast hc.symm))]
      rw [show rawOf none = rawZero from rfl,
        processSlot_rawZero k true (slotNums_bounds k hk).2]
      rfl)
  rw [hsingle]
  simp only
  have hfm : formationMap [⟨(n : Int), 99999999, 0, 0, 0, 0, 0, e, st⟩]
      (n : Int) = some ⟨(n : Int), 99999999, 0, 0, 0, 0, 0, e, st⟩ := by
    unfold formationMap
    simp [List.find?_cons]
  rw [hfm]
  have hraw : rawOf (some ⟨(n : Int), 99999999, 0, 0, 0, 0, 0, e, st⟩)
      = ⟨99, st.toNat, [0, 0, 0, 0, 0]⟩ := by
    rw [rawOf_some]
    congr 1 <;>
      first
        | rfl
        | decide
  rw [hraw]
  rw [processSlot_eval n _ true (by show (99 : Nat) < 128; decide)
    (by show st.toNat < 16; omega)
    (by show ∀ m ∈ ([0, 0, 0, 0, 0] : List Nat), m < 128; decide) h2]
  dsimp only
  rw [if_pos (by simp)]
  simp only [Option.toList_some, Prod.mk.injEq, List.cons.injEq, and_true]
  congr 1 <;>
    first
      | rfl
      | omega
      | (rw [decide_eq_decide]; omega)
      | simp

/-- C2 witness: the amended behaviour at slot 1, slot type 1. -/
theorem validation_personality_overflow_witness :
    ∃ code, FormationDeckCode.encode
        [⟨((1 : Nat) : Int), 99999999, 0, 0, 0, 0, 0, true, 1⟩] false
        = .ok code ∧
      FormationDeckCode.decode code true
        = ([⟨((1 : Nat) : Int), ((99 + 10000 + 1 * 100 : Nat) : Int),
             0, 0, 0, 0, 0, decide ((0 : Int) < 1), 1⟩], false) :=
  validation_personality_overflow 1 true 1 (by decide) (by decide)
    (by decide) (by decide)

/-- C2 counterexample: at the concrete slot ⟨1, 99999999, 0, 0, 0, 0, 0,
true, 1⟩, encode-then-decode with `validate=true` returns
`hadErrors = false` and personality 10199 — not `hadErrors = true` with the
field reset to 0 as claimed. -/
theorem validation_personality_overflow_counterexample :
    FormationDeckCode.decode
      ((FormationDeckCode.encode [⟨1, 99999999, 0, 0, 0, 0, 0, true, 1⟩]
        false).toOption.getD []) true
      = ([⟨1, 10199, 0, 0, 0, 0, 0, true, 1⟩], false) ∧
    (10199 : Int) ≠ 0 := by
  constructor
  · decide
  · decide

/-! ## C4: deck bit and byte sizes -/

/-- C4 (amended): the standard encode path assembles exactly 553 bits (one
leading reserved `true` bit, then 12 slots of 46 bits each), and the byte
buffer handed to the inner base-64 step is 70 bytes long — `ceil(553/8)`,
not 69 — with the 7 unused low bits of the last byte zero-padded. -/
theorem deck_bit_and_byte_sizes (fs : List FormationDetailInfo)
    (hne : fs ≠ []) :
    FormationDeckCode.encode fs false =
      .ok (TextCompressionUtility.compress
        (b64EncodeBytes (boolsToBytes (encodeBits fs)))) ∧
    (encodeBits fs).length = 553 ∧
    (encodeBits fs).getD 0 false = true ∧
    (boolsToBytes (encodeBits fs)).length = 70 ∧
    (boolsToBytes (encodeBits fs)).getD 69 0 % 128 = 0 := by
  refine ⟨encode_standard fs hne, encodeBits_length_553 fs, rfl, ?_, ?_⟩
  · rw [boolsToBytes_length, encodeBits_length_553]
  · have h := boolsToBytes_last_pad (encodeBits fs)
      (by rw [encodeBits_length_553])
    rw [encodeBits_length_553] at h
    exact h

/-- C4 witness: the sizes at a one-slot deck. -/
theorem deck_bit_and_byte_sizes_witness :
    ([⟨1, 10101, 20101, 0, 0, 0, 0, true, 1⟩] :
        List FormationDetailInfo) ≠ [] ∧
    (FormationDeckCode.encode [⟨1, 10101, 20101, 0, 0, 0, 0, true, 1⟩] false =
      .ok (TextCompressionUtility.compress (b64EncodeBytes (boolsToBytes
        (encodeBits [⟨1, 10101, 20101, 0, 0, 0, 0, true, 1⟩])))) ∧
    (encodeBits [⟨1, 10101, 20101, 0, 0, 0, 0, true, 1⟩]).length = 553 ∧
    (encodeBits [⟨1, 10101, 20101, 0, 0, 0, 0, true, 1⟩]).getD 0 false = true ∧
    (boolsToBytes (encodeBits [⟨1, 10101, 20101, 0, 0, 0, 0, true, 1⟩])).length = 70 ∧
    (boolsToBytes (encodeBits [⟨1, 10101, 20101, 0, 0, 0, 0, true, 1⟩])).getD 69 0 % 128
      = 0) :=
  ⟨by decide, deck_bit_and_byte_sizes
    [⟨1, 10101, 20101, 0, 0, 0, 0, true, 1⟩] (by decide)⟩

/-- C4 counterexample: for a concrete non-empty slot list the byte buffer
before the inner base-64 step has 70 bytes, not the 69 the claim states. -/
theorem deck_byte_size_counterexample :
    (boolsToBytes (encodeBits [⟨1, 10101, 20101, 0, 0, 0, 0, true, 1⟩])).length
      = 70 ∧
    (boolsToBytes (encodeBits [⟨1, 10101, 20101, 0, 0, 0, 0, true, 1⟩])).length
      ≠ 69 := by
  decide

/-! ## C10: the standard path depends only on the positional map -/

theorem flatMap_congr_slots (F G : Nat → List Bool) :
    ∀ (l : List Nat), (∀ n ∈ l, F n = G n) → l.flatMap F = l.flatMap G := by
  intro l
  induction l with
  | nil =>
    intro _
    rfl
  | cons a t ih =>
    intro h
    rw [List.flatMap_cons, List.flatMap_cons, h a (by simp),
      ih (fun n hn => h n (by simp [hn]))]

/-- C10: the standard encode path is a function of the slot-keyed map
alone: a formation with slot number outside 1..12 contributes nothing, on a
duplicated slot number the later list entry wins, and a non-empty list
consisting only of out-of-range slots still encodes the all-zero 553-bit
deck, a non-empty code rather than the empty string. -/
theorem encode_positional_map :
    (∀ (fs : List FormationDetailInfo) (f : FormationDetailInfo),
      (f.slot < 1 ∨ 12 < f.slot) → encodeBits (fs ++ [f]) = encodeBits fs) ∧
    (∀ (xs : List FormationDetailInfo) (f g : FormationDetailInfo),
      f.slot = g.slot → encodeBits (xs ++ [f, g]) = encodeBits (xs ++ [g])) ∧
    (∀ fs : List FormationDetailInfo, fs ≠ [] →
      (∀ f ∈ fs, f.slot < 1 ∨ 12 < f.slot) →
      encodeBits fs = true :: List.replicate 552 false ∧
      FormationDeckCode.encode fs false =
        .ok (TextCompressionUtility.compress (b64EncodeBytes (boolsToBytes
          (true :: List.replicate 552 false)))) ∧
      TextCompressionUtility.compress (b64EncodeBytes (boolsToBytes
        (true :: List.replicate 552 false))) ≠ []) := by
  have hslotrange : ∀ n ∈ slotNums, (1 : Int) ≤ (n : Int) ∧ ((n : Int)) ≤ 12 := by
    intro n hn
    have := slotNums_bounds n hn
    constructor <;> exact_mod_cast (by omega : _)
  refine ⟨?_, ?_, ?_⟩
  · intro fs f hout
    unfold encodeBits
    congr 1
    apply flatMap_congr_slots
    intro n hn
    congr 1
    unfold formationMap
    rw [List.reverse_append, List.reverse_singleton, List.singleton_append,
      List.find?_cons_of_neg]
    simp only [decide_eq_true_eq]
    have := hslotrange n hn
    omega
  · intro xs f g hfg
    unfold encodeBits
    congr 1
    apply flatMap_congr_slots
    intro n hn
    congr 1
    unfold formationMap
    rw [show (xs ++ [f, g]).reverse = g :: f :: xs.reverse by simp,
      show (xs ++ [g]).reverse = g :: xs.reverse by simp]
    by_cases hg : g.slot = (n : Int)
    · rw [List.find?_cons_of_pos _ (by simpa using hg),
        List.find?_cons_of_pos _ (by simpa using hg)]
    · have hf : ¬ f.slot = (n : Int) := by rw [hfg]; exact hg
      rw [List.find?_cons_of_neg _ (by simpa using hg),
        List.find?_cons_of_neg _ (by simpa using hf),
        List.find?_cons_of_neg _ (by simpa using hg)]
  · intro fs hne hout
    have hnone : ∀ n ∈ slotNums, formationMap fs (n : Int) = none := by
      intro n hn
      unfold formationMap
      rw [List.find?_eq_none]
      intro x hx
      have hxfs : x ∈ fs := List.mem_reverse.mp hx
      have := hout x hxfs
      have := hslotrange n hn
      simp only [decide_eq_true_eq]
      omega
    have hbits : encodeBits fs = true :: List.replicate 552 false := by
      unfold encodeBits
      congr 1
      rw [flatMap_congr_slots _ (fun _ => encodeSlotBits none) slotNums
        (fun n hn => by rw [hnone n hn])]
      decide
    refine ⟨hbits, ?_, by decide⟩
    rw [encode_standard fs hne, hbits]

/-- C10 witness: a single slot-13 formation contributes nothing yet still
yields the non-empty all-zero deck code. -/
theorem encode_positional_map_witness :
    ([⟨13, 10101, 0, 0, 0, 0, 0, true, 1⟩] : List FormationDetailInfo) ≠ [] ∧
    (∀ f ∈ ([⟨13, 10101, 0, 0, 0, 0, 0, true, 1⟩] : List FormationDetailInfo),
      f.slot < 1 ∨ 12 < f.slot) ∧
    (encodeBits [⟨13, 10101, 0, 0, 0, 0, 0, true, 1⟩]
        = true :: List.replicate 552 false ∧
      FormationDeckCode.encode [⟨13, 10101, 0, 0, 0, 0, 0, true, 1⟩] false =
        .ok (TextCompressionUtility.compress (b64EncodeBytes (boolsToBytes
          (true :: List.replicate 552 false)))) ∧
      TextCompressionUtility.compress (b64EncodeBytes (boolsToBytes
        (true :: List.replicate 552 false))) ≠ []) :=
  ⟨by decide, by decide,
    encode_positional_map.2.2 [⟨13, 10101, 0, 0, 0, 0, 0, true, 1⟩]
      (by decide) (by decide)⟩

end LimbusDeck
